import Mathlib

/-!
# timeout_checker: a shallow embedding of `timeout_checker.go`

Strings are lists of characters (`Line`).  Durations are integers counting
nanoseconds, as `time.Duration` (an `int64`) does.  Library functions of the Go
standard library that the program calls (`regexp`, `time.ParseDuration`,
`strings.Contains`, `strings.Replace`, `filepath.Base`, `filepath.Walk`, ...)
are modelled after their documented behaviour and sources, next to the
program's own functions which keep their names.
-/

namespace TimeoutChecker

/-- A string, seen as its sequence of characters. -/
abbrev Line := List Char

/-- A `time.Duration`: a count of nanoseconds. -/
abbrev Duration := Int

/-- `time.Minute`, in nanoseconds. -/
def Minute : Nat := 60 * 1000000000

/-- `time.Hour`, in nanoseconds. -/
def Hour : Nat := 60 * Minute

/-! ## `regexp`: the pattern `(\d+).*(Hour|Minute|hour|minute)`

The pattern is matched the way Go's `regexp` specifies it: the leftmost match,
and among the matches starting there the one a backtracking search finds first
(greedy repetitions take as much as they can and give back character by
character, alternatives are tried left to right).  Each piece of the pattern
is a function that tries its own options in that order. -/

/-- The alternation `(Hour|Minute|hour|minute)` at the head of `s`, its
alternatives tried in the order written: the text of capture group 2. -/
def matchUnit (s : Line) : Option Line :=
  if "Hour".toList.isPrefixOf s then some "Hour".toList
  else if "Minute".toList.isPrefixOf s then some "Minute".toList
  else if "hour".toList.isPrefixOf s then some "hour".toList
  else if "minute".toList.isPrefixOf s then some "minute".toList
  else none

/-- The tail `.*(Hour|Minute|hour|minute)` of the pattern at the head of `s`.
The star is greedy: `.` (any character but a newline) first consumes one more
character and the tail is matched after it; only when that fails is the
keyword tried right here. -/
def matchRest : Line → Option Line
  | [] => matchUnit []
  | c :: cs =>
    match (if c ≠ '\n' then matchRest cs else none) with
    | some u => some u
    | none => matchUnit (c :: cs)

/-- The group `(\d+)` once `acc` (at least one digit) has been consumed,
followed by the tail of the pattern.  The plus is greedy: one more digit is
consumed when there is one and the match goes on from there; when that fails
the group ends here with `acc`.  The result is capture groups 1 and 2. -/
def matchDigits (acc : Line) : Line → Option (Line × Line)
  | [] => (matchRest []).map (fun u => (acc, u))
  | c :: cs =>
    match (if c.isDigit then matchDigits (acc ++ [c]) cs else none) with
    | some r => some r
    | none => (matchRest (c :: cs)).map (fun u => (acc, u))

/-- The whole pattern anchored at the head of `s`: `\d+` needs a first digit. -/
def matchHere : Line → Option (Line × Line)
  | [] => none
  | c :: cs => if c.isDigit then matchDigits [c] cs else none

/-- `re.FindStringSubmatch(line)`: the leftmost match, searched from each
start position in turn.  `none` is Go's `nil` (length 0), `some (g1, g2)` is
the slice `[whole, g1, g2]` of length 3. -/
def FindStringSubmatch : Line → Option (Line × Line)
  | [] => matchHere []
  | c :: cs =>
    match matchHere (c :: cs) with
    | some r => some r
    | none => FindStringSubmatch cs

/-! ## `time.ParseDuration` -/

/-- `time.leadingInt`: consume the leading digits of `s` into `x`, failing when
the value passes `1<<63`. -/
def leadingInt (x : Nat) : Line → Option (Nat × Line)
  | [] => some (x, [])
  | c :: cs =>
    if c.isDigit then
      if x > 2 ^ 63 / 10 then none
      else
        let x1 := x * 10 + (c.toNat - '0'.toNat)
        if x1 > 2 ^ 63 then none else leadingInt x1 cs
    else some (x, c :: cs)

/-- `time.unitMap`. -/
def unitMap (u : Line) : Option Nat :=
  if u = "ns".toList then some 1
  else if u = "us".toList then some 1000
  else if u = "µs".toList then some 1000
  else if u = "μs".toList then some 1000
  else if u = "ms".toList then some 1000000
  else if u = "s".toList then some 1000000000
  else if u = "m".toList then some Minute
  else if u = "h".toList then some Hour
  else none

/-- `time.ParseDuration` on a token made of one unsigned integer and one unit
(the only tokens `parseDuration` builds): the token `0` is zero, otherwise the
integer is read by `leadingInt`, the unit is everything up to the next digit
or period and must end the token, and the product must fit in an `int64`.
`none` is an error.  Tokens of another shape (a sign, a fraction, several
segments) are outside this model and yield `none` too. -/
def ParseDuration (s : Line) : Option Duration :=
  match s with
  | [] => none
  | c :: _ =>
    if s = "0".toList then some 0
    else if !c.isDigit then none
    else
      match leadingInt 0 s with
      | none => none
      | some (v, rest) =>
        let u := rest.takeWhile (fun c => !(c = '.' || c.isDigit))
        if u = [] then none
        else if rest.dropWhile (fun c => !(c = '.' || c.isDigit)) ≠ [] then none
        else
          match unitMap u with
          | none => none
          | some unit =>
            if v > 2 ^ 63 / unit then none
            else if v * unit > 2 ^ 63 then none
            else if v * unit > 2 ^ 63 - 1 then none
            else some (Int.ofNat (v * unit))

/-! ## `parseDuration` -/

/-- `strings.ToLower` on ASCII text. -/
def ToLower (s : Line) : Line := s.map Char.toLower

/-- `parseDuration(line)`: the first capture is the value, the first byte of
the lower-cased second capture is the unit, and `time.ParseDuration` reads
their concatenation; no match and a failed read both give zero. -/
def parseDuration (line : Line) : Duration :=
  match FindStringSubmatch line with
  | none => 0
  | some (value, unitWord) =>
    let unit := (ToLower unitWord).take 1
    match ParseDuration (value ++ unit) with
    | none => 0
    | some d => d

/-! ## The record parsers -/

/-- The record `Timeout` of the four durations. -/
structure Timeout where
  Create : Duration
  Read : Duration
  Update : Duration
  Delete : Duration
  deriving DecidableEq, Repr

/-- The zero value `Timeout{}`. -/
def Timeout.zero : Timeout := ⟨0, 0, 0, 0⟩

/-- `strings.Contains(s, substr)`: `substr` starts at some position of `s`. -/
def Contains : Line → Line → Bool
  | [], substr => substr.isPrefixOf []
  | c :: cs, substr => substr.isPrefixOf (c :: cs) || Contains cs substr

/-- An I/O error, identified by a number. -/
structure IOError where
  code : Nat
  deriving DecidableEq, Repr

/-- What `os.Open` followed by a `bufio.Scanner` loop observes of a file: the
lines `scanner.Text()` yields until `scanner.Scan()` returns false, and the
value of `scanner.Err()` after the loop. -/
structure Scanned where
  lines : List Line
  err : Option IOError

/-- The file system as the parsers see it: `os.Open` fails with an error or
gives a file to scan. -/
abbrev Files := Line → Except IOError Scanned

/-- The body of the scanning loop of `parseTimeoutsFromGoFile`, for one line. -/
def goLine (timeouts : Timeout) (line : Line) : Timeout :=
  if Contains line "Create:".toList then
    { timeouts with Create := parseDuration line }
  else if Contains line "Read:".toList then
    { timeouts with Read := parseDuration line }
  else if Contains line "Update:".toList then
    { timeouts with Update := parseDuration line }
  else if Contains line "Delete:".toList then
    { timeouts with Delete := parseDuration line }
  else timeouts

/-- The body of the scanning loop of `parseTimeoutsFromMarkdownFile`, for one
line. -/
def mdLine (timeouts : Timeout) (line : Line) : Timeout :=
  if Contains line "`create`".toList then
    { timeouts with Create := parseDuration line }
  else if Contains line "`read`".toList then
    { timeouts with Read := parseDuration line }
  else if Contains line "`update`".toList then
    { timeouts with Update := parseDuration line }
  else if Contains line "`delete`".toList then
    { timeouts with Delete := parseDuration line }
  else timeouts

/-- `parseTimeoutsFromGoFile(filePath)`: the record and the error it returns. -/
def parseTimeoutsFromGoFile (fs : Files) (filePath : Line) : Timeout × Option IOError :=
  match fs filePath with
  | .error err => (Timeout.zero, some err)
  | .ok file =>
    let timeouts := file.lines.foldl goLine Timeout.zero
    match file.err with
    | some err => (Timeout.zero, some err)
    | none => (timeouts, none)

/-- `parseTimeoutsFromMarkdownFile(filePath)`: the record and the error it
returns. -/
def parseTimeoutsFromMarkdownFile (fs : Files) (filePath : Line) : Timeout × Option IOError :=
  match fs filePath with
  | .error err => (Timeout.zero, some err)
  | .ok file =>
    let timeouts := file.lines.foldl mdLine Timeout.zero
    match file.err with
    | some err => (Timeout.zero, some err)
    | none => (timeouts, none)

/-! ## The name mapper -/

/-- `filepath.Base(path)` with `/` as the separator: the last element of the
path, trailing separators removed first; `.` for the empty path and `/` for a
path of separators only. -/
def Base (path : Line) : Line :=
  if path = [] then ".".toList
  else
    let stripped := (path.reverse.dropWhile (fun c => c = '/')).reverse
    let last := (stripped.reverse.takeWhile (fun c => c ≠ '/')).reverse
    if last = [] then "/".toList else last

/-- `strings.Replace(s, old, new, 1)` for a non-empty `old`: the first
occurrence of `old` in `s` is replaced by `new`. -/
def Replace1 (old new : Line) : Line → Line
  | [] => []
  | c :: cs =>
    if old.isPrefixOf (c :: cs) then new ++ (c :: cs).drop old.length
    else c :: Replace1 old new cs

/-- `strings.HasSuffix(s, suffix)`. -/
def HasSuffix (s suffix : Line) : Bool := suffix.isSuffixOf s

/-- `extractResourceName(path)`. -/
def extractResourceName (path : Line) : Line :=
  let base := Base path
  Replace1 "_data_source.go".toList [] (Replace1 "_resource.go".toList [] base)

/-- The guard of `main` on the source file name: true when `main` goes on. -/
def isDefinitionFile (goFileName : Line) : Bool :=
  HasSuffix goFileName "_resource.go".toList || HasSuffix goFileName "_data_source.go".toList

/-- The value of `mdFileName` in `main`. -/
def mdFileName (goFileName : Line) : Line :=
  extractResourceName goFileName ++ ".html.markdown".toList

/-- The value of `rootDir` that `main` passes to `findFile`. -/
def docRootDir (goFileName rootDir : Line) : Line :=
  if Contains goFileName "_resource.go".toList then rootDir ++ "/website/docs/r/".toList
  else rootDir ++ "/website/docs/d/".toList

/-! ## The verdict -/

/-- The banner `main` prints after the table. -/
inductive Banner where
  | documentationMatches
  | documentationDoesNotMatch
  deriving DecidableEq, Repr

/-- The end of `main`: the banner printed and the exit code, from the
comparison `goTimeouts == mdTimeouts` of the two records. -/
def verdict (goTimeouts mdTimeouts : Timeout) : Banner × Nat :=
  if goTimeouts = mdTimeouts then (Banner.documentationMatches, 0)
  else (Banner.documentationDoesNotMatch, 1)

/-! ## `filepath.Walk` and `findFile` -/

/-- A directory tree as `filepath.Walk` observes it.  Every entry carries the
name its `FileInfo` reports. -/
inductive Node where
  /-- An entry that is not a directory. -/
  | file (name : Line) : Node
  /-- A directory whose names can be read, with its entries in the order
  `readDirNames` returns them (sorted by name). -/
  | dir (name : Line) (entries : List Node) : Node
  /-- A directory on which `readDirNames` fails. -/
  | unreadable (name : Line) (err : IOError) : Node
  /-- An entry on which `Lstat` fails. -/
  | broken (name : Line) (err : IOError) : Node

/-- The name of an entry. -/
def Node.name : Node → Line
  | .file n => n
  | .dir n _ => n
  | .unreadable n _ => n
  | .broken n _ => n

/-- `info.IsDir()` of an entry on which `Lstat` succeeds. -/
def Node.isDir : Node → Bool
  | .dir _ _ => true
  | .unreadable _ _ => true
  | _ => false

/-- The arguments `info` and `err` of a call of the walk function. -/
inductive Visit where
  /-- `info` is set and `err` is nil. -/
  | entry (name : Line) (isDir : Bool) : Visit
  /-- `info` is set and `err` is the error of `readDirNames`. -/
  | readError (name : Line) (err : IOError) : Visit
  /-- `info` is nil and `err` is the error of `Lstat`. -/
  | lstatError (err : IOError) : Visit
  deriving DecidableEq, Repr

/-- What a walk function returns: nil, `filepath.SkipDir` or another error. -/
inductive WalkResult where
  | nil : WalkResult
  | SkipDir : WalkResult
  | error (err : IOError) : WalkResult
  deriving DecidableEq, Repr

/-- `filepath.Clean` with `/` as the separator: separators are merged, `.`
elements dropped, an inner `..` removes the element before it, a `..` at the
start of a rooted path is dropped; the empty result is `.`. -/
def cleanElems (rooted : Bool) : List Line → List Line → List Line
  | acc, [] => acc.reverse
  | acc, e :: es =>
    if e = [] ∨ e = ".".toList then cleanElems rooted acc es
    else if e = "..".toList then
      match acc with
      | [] => if rooted then cleanElems rooted [] es else cleanElems rooted [e] es
      | a :: as =>
        if a = "..".toList then cleanElems rooted (e :: a :: as) es
        else cleanElems rooted as es
    else cleanElems rooted (e :: acc) es

/-- See `cleanElems`. -/
def Clean (path : Line) : Line :=
  let rooted := "/".toList.isPrefixOf path
  let elems := cleanElems rooted [] (path.splitOn '/')
  let body := "/".toList.intercalate elems
  if rooted then '/' :: body
  else if body = [] then ".".toList else body

/-- `filepath.Join(dir, name)`: empty elements are ignored, the others are
joined by `/` and the result is cleaned; two empty elements give the empty
path. -/
def Join (dir name : Line) : Line :=
  if dir = [] then (if name = [] then [] else Clean name)
  else if name = [] then Clean dir
  else Clean (dir ++ '/' :: name)

/-- A walk function with a state `σ` (the variables its closure captures). -/
abbrev WalkFunc (σ : Type) := σ → Line → Visit → σ × WalkResult

mutual
/-- `filepath.walk(path, info, walkFn)` for an entry on which `Lstat`
succeeded; the case of a broken entry is the call `fn(root, nil, err)` that
`filepath.Walk` makes for a root on which `Lstat` fails. -/
def walk {σ : Type} (walkFn : WalkFunc σ) (path : Line) : Node → σ → σ × WalkResult
  | .file name, s => walkFn s path (.entry name false)
  | .dir name entries, s =>
    match walkFn s path (.entry name true) with
    | (s1, .nil) => walkNames walkFn path entries s1
    | (s1, err1) => (s1, err1)
  | .unreadable name err, s => walkFn s path (.readError name err)
  | .broken _ err, s => walkFn s path (.lstatError err)
/-- The loop of `filepath.walk` over the names of a directory. -/
def walkNames {σ : Type} (walkFn : WalkFunc σ) (path : Line) : List Node → σ → σ × WalkResult
  | [], s => (s, .nil)
  | .broken name err :: rest, s =>
    match walkFn s (Join path name) (.lstatError err) with
    | (s1, .error e) => (s1, .error e)
    | (s1, _) => walkNames walkFn path rest s1
  | child :: rest, s =>
    match walk walkFn (Join path child.name) child s with
    | (s1, .nil) => walkNames walkFn path rest s1
    | (s1, .SkipDir) =>
      if child.isDir then walkNames walkFn path rest s1 else (s1, .SkipDir)
    | (s1, .error e) => (s1, .error e)
end

/-- `filepath.Walk(root, fn)`: the final state of the closure and the error
returned. -/
def Walk {σ : Type} (root : Line) (tree : Node) (fn : WalkFunc σ) (s : σ) : σ × Option IOError :=
  match walk fn root tree s with
  | (s1, .nil) => (s1, none)
  | (s1, .SkipDir) => (s1, none)
  | (s1, .error e) => (s1, some e)

/-- The error of `findFile`. -/
inductive FindError where
  /-- An error of the walk. -/
  | walk (err : IOError) : FindError
  /-- `fmt.Errorf("file %s not found", fileName)`. -/
  | notFound (fileName : Line) : FindError
  deriving DecidableEq, Repr

/-- The closure `findFile` passes to `filepath.Walk`; its state is
`foundPath`. -/
def findFileFn (fileName : Line) : WalkFunc Line :=
  fun foundPath path visit =>
    match visit with
    | .lstatError err => (foundPath, .error err)
    | .readError _ err => (foundPath, .error err)
    | .entry name _ =>
      if name = fileName then (path, .SkipDir) else (foundPath, .nil)

/-- `findFile(root, fileName)` on the tree found at `root`: the path and the
error it returns. -/
def findFile (tree : Node) (root fileName : Line) : Line × Option FindError :=
  match Walk root tree (findFileFn fileName) [] with
  | (_, some err) => ([], some (.walk err))
  | (foundPath, none) =>
    if foundPath = [] then ([], some (.notFound fileName))
    else (foundPath, none)

/-! ## `Duration.String` -/

/-- `time.Second`, `time.Millisecond` and `time.Microsecond`, in nanoseconds. -/
def Second : Nat := 1000000000

/-- See `Second`. -/
def Millisecond : Nat := 1000000

/-- See `Second`. -/
def Microsecond : Nat := 1000

/-- The byte `byte(digit) + '0'` of a decimal digit. -/
def digitChar (digit : Nat) : Char := Char.ofNat (digit + 48)

/-- The loop `for v > 0` of `time.fmtInt`, which writes the digits of `v` in
front of `buf`, the last digit first.  The loop divides `v` by ten at each
turn, so it makes at most `v` turns: `fuel` bounds the turns. -/
def fmtIntLoop : Nat → Nat → Line → Line
  | 0, _, buf => buf
  | fuel + 1, v, buf =>
    if v > 0 then fmtIntLoop fuel (v / 10) (digitChar (v % 10) :: buf) else buf

/-- `time.fmtInt(buf, v)`: the decimal form of `v` written in front of `buf`. -/
def fmtInt (buf : Line) (v : Nat) : Line :=
  if v = 0 then '0' :: buf else fmtIntLoop v v buf

/-- The loop of `time.fmtFrac` over `prec` digits, the last digit first: a
digit is written once a non-zero digit has been seen (`print`). -/
def fmtFracLoop : Nat → Nat → Bool → Line → Line × Nat × Bool
  | 0, v, print, buf => (buf, v, print)
  | prec + 1, v, print, buf =>
    let digit := v % 10
    let print1 := print || digit != 0
    fmtFracLoop prec (v / 10) print1 (if print1 then digitChar digit :: buf else buf)

/-- `time.fmtFrac(buf, v, prec)`: the fraction `v / 10^prec` written in front
of `buf` without its trailing zeros, with the period unless the fraction is
zero; returns the new buffer and `v / 10^prec`. -/
def fmtFrac (buf : Line) (v prec : Nat) : Line × Nat :=
  match fmtFracLoop prec v false buf with
  | (buf1, v1, print) => (if print then '.' :: buf1 else buf1, v1)

/-- The part of `Duration.format` that writes the absolute value `u` of the
duration; the text is built from its end. -/
def formatAbs (u : Nat) : Line :=
  if u < Second then
    if u = 0 then "0s".toList
    else if u < Microsecond then
      match fmtFrac "ns".toList u 0 with
      | (buf, v) => fmtInt buf v
    else if u < Millisecond then
      match fmtFrac "µs".toList u 3 with
      | (buf, v) => fmtInt buf v
    else
      match fmtFrac "ms".toList u 6 with
      | (buf, v) => fmtInt buf v
  else
    match fmtFrac "s".toList u 9 with
    | (buf, v) =>
      let buf1 := fmtInt buf (v % 60)
      let v1 := v / 60
      if v1 > 0 then
        let buf2 := fmtInt ('m' :: buf1) (v1 % 60)
        let v2 := v1 / 60
        if v2 > 0 then fmtInt ('h' :: buf2) v2 else buf2
      else buf1

/-- `d.String()` for a `time.Duration`, after `Duration.format`: the text of
the absolute value, with a minus sign in front when `d` is negative. -/
def DurationString (d : Duration) : Line :=
  if d < 0 then '-' :: formatAbs d.natAbs else formatAbs d.natAbs

/-! ## `viewResults` and `main` -/

/-- A row handed to the table writer: its three cells, and whether they went
through `color.New(color.FgRed, color.Bold).Sprint`. -/
structure Row where
  label : Line
  defCell : Line
  docsCell : Line
  highlighted : Bool
  deriving DecidableEq, Repr

/-- `viewResults(data)`: the rows appended to the table, in order; a row whose
second and third cells differ is highlighted. -/
def viewResults (data : List (Line × Line × Line)) : List Row :=
  data.map (fun v => ⟨v.1, v.2.1, v.2.2, decide (v.2.1 ≠ v.2.2)⟩)

/-- The value of `results` in `main`. -/
def results (goTimeouts mdTimeouts : Timeout) : List (Line × Line × Line) :=
  [("Create".toList, DurationString goTimeouts.Create, DurationString mdTimeouts.Create),
   ("Read".toList, DurationString goTimeouts.Read, DurationString mdTimeouts.Read),
   ("Update".toList, DurationString goTimeouts.Update, DurationString mdTimeouts.Update),
   ("Delete".toList, DurationString goTimeouts.Delete, DurationString mdTimeouts.Delete)]

/-- What a run of `main` does that can be observed, in order: the lines it
prints, the files it opens, the walk it starts, the table it renders. -/
inductive Event where
  /-- The usage line, with the path of the executable. -/
  | usage (exec : Line) : Event
  /-- The line `Checking Timeouts for Resource/ Data Source Documentation`. -/
  | checking : Event
  /-- The line `'<name>' is probably not a resource or data source definition.` -/
  | notDefinition (goFileName : Line) : Event
  /-- A call of `os.Open`. -/
  | osOpen (path : Line) : Event
  /-- A call of `filepath.Walk`. -/
  | walkDir (root : Line) : Event
  /-- The line `Error reading Go file: <err>`. -/
  | errorReadingGo (err : IOError) : Event
  /-- The line `Error finding Markdown file: <err>`. -/
  | errorFinding (err : FindError) : Event
  /-- The line `Found matching documentation file <path>`. -/
  | found (mdFilePath : Line) : Event
  /-- The line `Error reading Markdown file: <err>`. -/
  | errorReadingMd (err : IOError) : Event
  /-- The table rendered by `viewResults`. -/
  | table (rows : List Row) : Event
  /-- The banner of the verdict. -/
  | banner (b : Banner) : Event
  deriving DecidableEq, Repr

/-- How the process ends: with an exit status, or by a run-time panic (a nil
pointer dereference), which the Go run time turns into exit status 2. -/
inductive Exit where
  | code (status : Nat) : Exit
  | panic : Exit
  deriving DecidableEq, Repr

/-- What `main` sees of its environment: the files, the directory tree that
a walk of a given root observes, and the result of `os.Executable`. -/
structure World where
  files : Files
  tree : Line → Node
  executable : Except IOError Line

/-- A run of `main`: its events and the way it ends. -/
structure Run where
  events : List Event
  exit : Exit
  deriving DecidableEq, Repr

/-- `main` on the arguments `os.Args[1:]`.  When `os.Open(goFileName)` fails,
`main` drops the error and calls `file.Name()` on the nil file, which
panics. -/
def main (w : World) (args : List Line) : Run :=
  match args with
  | goFileName :: rootDir :: _ =>
    if !isDefinitionFile goFileName then
      ⟨[.checking, .notDefinition goFileName], .code 0⟩
    else
      match w.files goFileName with
      | .error _ => ⟨[.checking, .osOpen goFileName], .panic⟩
      | .ok _ =>
        match parseTimeoutsFromGoFile w.files goFileName with
        | (_, some err) =>
          ⟨[.checking, .osOpen goFileName, .osOpen goFileName, .errorReadingGo err], .code 0⟩
        | (goTimeouts, none) =>
          let root := docRootDir goFileName rootDir
          match findFile (w.tree root) root (mdFileName goFileName) with
          | (_, some err) =>
            ⟨[.checking, .osOpen goFileName, .osOpen goFileName, .walkDir root,
              .errorFinding err], .code 0⟩
          | (mdFilePath, none) =>
            match parseTimeoutsFromMarkdownFile w.files mdFilePath with
            | (_, some err) =>
              ⟨[.checking, .osOpen goFileName, .osOpen goFileName, .walkDir root,
                .found mdFilePath, .osOpen mdFilePath, .errorReadingMd err], .code 0⟩
            | (mdTimeouts, none) =>
              ⟨[.checking, .osOpen goFileName, .osOpen goFileName, .walkDir root,
                .found mdFilePath, .osOpen mdFilePath,
                .table (viewResults (results goTimeouts mdTimeouts)),
                .banner (verdict goTimeouts mdTimeouts).1],
               .code (verdict goTimeouts mdTimeouts).2⟩
  | _ =>
    match w.executable with
    | .error _ => ⟨[], .code 0⟩
    | .ok exec => ⟨[.usage exec], .code 0⟩

/-! ## Vocabulary of the statements -/

/-- The four spellings of a unit the pattern knows. -/
def unitWords : List Line :=
  ["Hour".toList, "Minute".toList, "hour".toList, "minute".toList]

/-- The first maximal run of digits of a line (empty when it has no digit). -/
def firstDigits (line : Line) : Line :=
  (line.dropWhile (fun c => !c.isDigit)).takeWhile Char.isDigit

/-- What follows the first maximal run of digits of a line. -/
def afterFirstDigits (line : Line) : Line :=
  (line.dropWhile (fun c => !c.isDigit)).dropWhile Char.isDigit

/-- The number a run of decimal digits denotes (leading zeros allowed). -/
def digitsValue (ds : Line) : Nat :=
  ds.foldl (fun n c => n * 10 + (c.toNat - '0'.toNat)) 0

/-- The nanoseconds of the unit a unit word names. -/
def unitNanos (w : Line) : Nat :=
  if ToLower w = "hour".toList then Hour else Minute

/-- A count of nanoseconds as a duration: itself when it fits in an `int64`,
zero when it does not. -/
def fitInt64 (n : Nat) : Duration :=
  if n ≤ 2 ^ 63 - 1 then (n : Int) else 0

/-- The line has a digit and, somewhere after it, one of the four unit
words. -/
def HasDuration (line : Line) : Prop :=
  ∃ a d b w c, line = a ++ d :: b ++ w ++ c ∧ d.isDigit = true ∧ w ∈ unitWords

/-- The word `w` is the unit word of `s` that starts last: it occurs in `s` and
no unit word starts at a later position. -/
def IsLastUnitWord (s w : Line) : Prop :=
  ∃ a b, s = a ++ (w ++ b) ∧ w ∈ unitWords ∧
    ∀ x y, w ++ b = x ++ y → x ≠ [] → ∀ v ∈ unitWords, ¬ v <+: y

/-- The four fields of the record, in the order the parsers test them. -/
inductive Field where
  | Create
  | Read
  | Update
  | Delete
  deriving DecidableEq, Repr

/-- The value of a field of the record. -/
def Timeout.get (t : Timeout) : Field → Duration
  | .Create => t.Create
  | .Read => t.Read
  | .Update => t.Update
  | .Delete => t.Delete

/-- The record with one field replaced. -/
def Timeout.set (t : Timeout) (f : Field) (d : Duration) : Timeout :=
  match f with
  | .Create => { t with Create := d }
  | .Read => { t with Read := d }
  | .Update => { t with Update := d }
  | .Delete => { t with Delete := d }

/-- The marker of a field in the definition format. -/
def goMarker : Field → Line
  | .Create => "Create:".toList
  | .Read => "Read:".toList
  | .Update => "Update:".toList
  | .Delete => "Delete:".toList

/-- The marker of a field in the documentation format. -/
def mdMarker : Field → Line
  | .Create => "`create`".toList
  | .Read => "`read`".toList
  | .Update => "`update`".toList
  | .Delete => "`delete`".toList

/-- The field of the first marker, in the order Create, Read, Update, Delete,
that the line contains. -/
def firstMarker (marker : Field → Line) (line : Line) : Option Field :=
  [Field.Create, Field.Read, Field.Update, Field.Delete].find?
    (fun f => Contains line (marker f))

mutual
/-- The names of all entries of a tree, the root included. -/
def Node.names : Node → List Line
  | .file n => [n]
  | .dir n entries => n :: namesOfList entries
  | .unreadable n _ => [n]
  | .broken n _ => [n]
/-- The names of all entries of a list of trees. -/
def namesOfList : List Node → List Line
  | [] => []
  | c :: cs => c.names ++ namesOfList cs
end

/-- The error a call of the walk function receives, if any. -/
def Visit.err : Visit → Option IOError
  | .entry _ _ => none
  | .readError _ e => some e
  | .lstatError e => some e

/-- A walk function that also records the calls it receives, in order. -/
def logged {σ : Type} (fn : WalkFunc σ) : WalkFunc (σ × List (Line × Visit)) :=
  fun s path visit =>
    match fn s.1 path visit with
    | (s1, r) => ((s1, s.2 ++ [(path, visit)]), r)

/-- The calls the walk function of `findFile` receives during the walk. -/
def findFileCalls (tree : Node) (root fileName : Line) : List (Line × Visit) :=
  (Walk root tree (logged (findFileFn fileName)) ([], [])).1.2

/-- The errors the calls of a log received, in order. -/
def errorsOf (log : List (Line × Visit)) : List IOError :=
  log.filterMap (fun pv => pv.2.err)

/-- The error a walk result carries, as a list. -/
def WalkResult.errors : WalkResult → List IOError
  | .error e => [e]
  | _ => []

/-- The result of the call of `parseTimeoutsFromGoFile` in `main`. -/
def goRecord (w : World) (goFileName : Line) : Timeout × Option IOError :=
  parseTimeoutsFromGoFile w.files goFileName

/-- The result of the call of `findFile` in `main`. -/
def docPath (w : World) (goFileName rootDir : Line) : Line × Option FindError :=
  findFile (w.tree (docRootDir goFileName rootDir)) (docRootDir goFileName rootDir)
    (mdFileName goFileName)

/-- The result of the call of `parseTimeoutsFromMarkdownFile` in `main`, on the
path `findFile` returned. -/
def mdRecord (w : World) (goFileName rootDir : Line) : Timeout × Option IOError :=
  parseTimeoutsFromMarkdownFile w.files (docPath w goFileName rootDir).1

/-- The three steps before the comparison succeed: the source record is
parsed, the documentation file is located, the documentation record is
parsed. -/
def StepsSucceed (w : World) (goFileName rootDir : Line) : Prop :=
  (goRecord w goFileName).2 = none ∧ (docPath w goFileName rootDir).2 = none ∧
    (mdRecord w goFileName rootDir).2 = none

/-- The run prints a table or a banner. -/
def PrintsTable (run : Run) : Prop :=
  (∃ rows, Event.table rows ∈ run.events) ∨ (∃ b, Event.banner b ∈ run.events)

mutual
/-- The entries of a tree, the root included, each with the path the walk
gives it and the name its `FileInfo` reports. -/
def entriesUnder (path : Line) : Node → List (Line × Line)
  | .file n => [(path, n)]
  | .dir n entries => (path, n) :: entriesOfList path entries
  | .unreadable n _ => [(path, n)]
  | .broken n _ => [(path, n)]
/-- The entries of the trees of a directory at `path`. -/
def entriesOfList (path : Line) : List Node → List (Line × Line)
  | [] => []
  | c :: cs => entriesUnder (Join path c.name) c ++ entriesOfList path cs
end

/-- A step of the walk of `findFile` from the state `s` and the log `log` to
`res` is sound for the entries `ents`: the log grows by calls on entries of
`ents`, and the path held at the end is the one held before or the path of a
call on an entry named `fileName`. -/
def SoundStep (fileName : Line) (ents : List (Line × Line)) (s : Line)
    (log : List (Line × Visit)) (res : (Line × List (Line × Visit)) × WalkResult) : Prop :=
  ∃ extra, res.1.2 = log ++ extra ∧
    (∀ p nm d, (p, Visit.entry nm d) ∈ extra → (p, nm) ∈ ents) ∧
    (res.1.1 = s ∨ ∃ d, (res.1.1, Visit.entry fileName d) ∈ extra)

/-- A character of a unit in the text of a duration: neither a digit nor the
period. -/
def isUnitChar (c : Char) : Bool := !(c.isDigit || c == '.')

/-- The nanoseconds of a unit in the text of a duration. -/
def unitValue (u : Line) : Nat :=
  if u = ['n', 's'] then 1
  else if u = ['µ', 's'] then 1000
  else if u = ['m', 's'] then 1000000
  else if u = ['s'] then 1000000000
  else if u = ['m'] then 60000000000
  else if u = ['h'] then 3600000000000
  else 0

/-- Read one segment of the text of a duration: a number, a fraction after a
period if there is one, and a unit; gives its nanoseconds and the text left. -/
def readSeg (s : Line) : Nat × Line :=
  let whole := s.takeWhile Char.isDigit
  let r1 := s.dropWhile Char.isDigit
  if r1.head? = some '.' then
    let frac := r1.tail.takeWhile Char.isDigit
    let r2 := r1.tail.dropWhile Char.isDigit
    let unit := unitValue (r2.takeWhile isUnitChar)
    (digitsValue whole * unit + digitsValue frac * unit / 10 ^ frac.length,
      r2.dropWhile isUnitChar)
  else
    (digitsValue whole * unitValue (r1.takeWhile isUnitChar), r1.dropWhile isUnitChar)

/-- The nanoseconds that the text of a non-negative duration denotes: the sum
of its segments, of which there are at most three. -/
def decodeBody (s : Line) : Nat :=
  (readSeg s).1 + (readSeg (readSeg s).2).1 + (readSeg (readSeg (readSeg s).2).2).1

/-- The duration that the text of a duration denotes. -/
def decode (s : Line) : Int :=
  if s.head? = some '-' then -((decodeBody s.tail : Nat) : Int) else ((decodeBody s : Nat) : Int)

/-! ## The pattern: what the search finds -/

theorem matchUnit_some {s w : Line} (h : matchUnit s = some w) : w ∈ unitWords ∧ w <+: s := by
  unfold matchUnit at h
  split_ifs at h with h1 h2 h3 h4 <;> simp at h <;> subst h
  · exact ⟨by decide, List.isPrefixOf_iff_prefix.mp h1⟩
  · exact ⟨by decide, List.isPrefixOf_iff_prefix.mp h2⟩
  · exact ⟨by decide, List.isPrefixOf_iff_prefix.mp h3⟩
  · exact ⟨by decide, List.isPrefixOf_iff_prefix.mp h4⟩

theorem matchUnit_append {w : Line} (hw : w ∈ unitWords) (b : Line) :
    matchUnit (w ++ b) = some w := by
  simp [unitWords] at hw
  rcases hw with rfl | rfl | rfl | rfl <;> simp [matchUnit, List.isPrefixOf]

theorem matchUnit_eq_none_iff (s : Line) :
    matchUnit s = none ↔ ∀ v ∈ unitWords, ¬ v <+: s := by
  constructor
  · intro h v hv hpre
    obtain ⟨b, rfl⟩ := hpre
    rw [matchUnit_append hv] at h
    exact absurd h (by simp)
  · intro h
    cases hm : matchUnit s with
    | none => rfl
    | some w => exact absurd (matchUnit_some hm).2 (h w (matchUnit_some hm).1)

theorem unitWords_head {w : Line} (hw : w ∈ unitWords) :
    ∃ c cs, w = c :: cs ∧ c.isDigit = false ∧ c ≠ '\n' := by
  simp [unitWords] at hw
  rcases hw with rfl | rfl | rfl | rfl <;> exact ⟨_, _, rfl, by decide, by decide⟩

theorem matchUnit_cons_none {c : Char} (cs : Line) (hc : c.isDigit = true ∨ c = '\n') :
    matchUnit (c :: cs) = none := by
  rw [matchUnit_eq_none_iff]
  intro v hv hpre
  obtain ⟨d, ds, rfl, hd, hnl⟩ := unitWords_head hv
  obtain ⟨t, ht⟩ := hpre
  simp at ht
  rcases hc with hc | hc
  · rw [ht.1] at hd; rw [hd] at hc; exact absurd hc (by simp)
  · exact hnl (ht.1.trans hc)

theorem matchUnit_nil : matchUnit [] = none := by decide

theorem matchRest_none_of {s : Line} (h : ∀ t, t <:+ s → matchUnit t = none) :
    matchRest s = none := by
  induction s with
  | nil => simpa [matchRest] using h [] (List.suffix_refl _)
  | cons c cs ih =>
    have h1 : matchRest cs = none := ih (fun t ht => h t (List.suffix_cons_iff.mpr (Or.inr ht)))
    have h2 : matchUnit (c :: cs) = none := h _ (List.suffix_refl _)
    simp [matchRest, h1, h2]

theorem matchRest_none_suffix {s : Line} (hnl : '\n' ∉ s) (h : matchRest s = none) :
    ∀ t, t <:+ s → matchUnit t = none := by
  induction s with
  | nil =>
    intro t ht
    simp at ht
    subst ht
    exact matchUnit_nil
  | cons c cs ih =>
    simp at hnl
    have hc : c ≠ '\n' := fun e => hnl.1 e.symm
    have hrest : matchRest cs = none := by
      cases hr : matchRest cs with
      | none => rfl
      | some u => simp [matchRest, hc, hr] at h
    have hhere : matchUnit (c :: cs) = none := by
      simpa [matchRest, hc, hrest] using h
    intro t ht
    rcases List.suffix_cons_iff.mp ht with rfl | ht
    · exact hhere
    · exact ih hnl.2 hrest t ht

theorem matchRest_last {a w b : Line} (hnl : '\n' ∉ a) (hw : w ∈ unitWords)
    (hlast : ∀ x y, w ++ b = x ++ y → x ≠ [] → ∀ v ∈ unitWords, ¬ v <+: y) :
    matchRest (a ++ (w ++ b)) = some w := by
  induction a with
  | nil =>
    obtain ⟨c, cs, rfl, -, hc⟩ := unitWords_head hw
    have h1 : matchRest (cs ++ b) = none := by
      apply matchRest_none_of
      intro t ht
      obtain ⟨x, hx⟩ := ht
      rw [matchUnit_eq_none_iff]
      refine hlast (c :: x) t ?_ (by simp)
      simp [← hx]
    have h2 := matchUnit_append hw b
    simp only [List.cons_append] at h2
    simp [matchRest, h1, h2]
  | cons c cs ih =>
    simp at hnl
    have hc : c ≠ '\n' := fun e => hnl.1 e.symm
    have := ih hnl.2
    simp [matchRest, hc, this]

theorem matchRest_some_last {s w : Line} (hnl : '\n' ∉ s) (h : matchRest s = some w) :
    IsLastUnitWord s w := by
  induction s with
  | nil => simp [matchRest, matchUnit_nil] at h
  | cons c cs ih =>
    simp at hnl
    have hc : c ≠ '\n' := fun e => hnl.1 e.symm
    cases hr : matchRest cs with
    | some u =>
      have hu : u = w := by simpa [matchRest, hc, hr] using h
      subst hu
      obtain ⟨a, b, hab, hw, hl⟩ := ih hnl.2 hr
      exact ⟨c :: a, b, by simp [hab], hw, hl⟩
    | none =>
      have hhere : matchUnit (c :: cs) = some w := by
        simpa [matchRest, hc, hr] using h
      obtain ⟨hw, b, hb⟩ := matchUnit_some hhere
      refine ⟨[], b, by simp [hb], hw, ?_⟩
      intro x y hxy hx v hv
      have hsuf : y <:+ cs := by
        cases x with
        | nil => exact absurd rfl hx
        | cons x0 xs =>
          rw [hb] at hxy
          simp at hxy
          exact ⟨xs, hxy.2.symm⟩
      have := matchRest_none_suffix hnl.2 hr y hsuf
      exact (matchUnit_eq_none_iff y).mp this v hv

theorem matchRest_digits_none {ds rest : Line} (hds : ∀ c ∈ ds, c.isDigit = true)
    (hnl : '\n' ∉ rest) (h : matchRest rest = none) : matchRest (ds ++ rest) = none := by
  apply matchRest_none_of
  intro t ht
  induction ds with
  | nil => exact matchRest_none_suffix hnl h t ht
  | cons d ds ih =>
    rcases List.suffix_cons_iff.mp ht with rfl | ht
    · exact matchUnit_cons_none _ (Or.inl (hds d (by simp)))
    · exact ih (fun c hc => hds c (by simp [hc])) ht

theorem matchDigits_run (acc ds rest : Line) (hds : ∀ c ∈ ds, c.isDigit = true)
    (hrest : ∀ c, rest.head? = some c → c.isDigit = false) (hnl : '\n' ∉ rest) :
    matchDigits acc (ds ++ rest) = (matchRest rest).map (fun u => (acc ++ ds, u)) := by
  induction ds generalizing acc with
  | nil =>
    cases rest with
    | nil => simp [matchDigits]
    | cons c cs =>
      have hc : c.isDigit = false := hrest c rfl
      simp [matchDigits, hc]
  | cons d ds ih =>
    have hd : d.isDigit = true := hds d (by simp)
    have hds1 : ∀ c ∈ ds, c.isDigit = true := fun c hc => hds c (by simp [hc])
    have h1 := ih (acc ++ [d]) hds1
    cases hr : matchRest rest with
    | some u =>
      rw [hr] at h1
      simp at h1
      simp [matchDigits, hd, h1]
    | none =>
      rw [hr] at h1
      simp at h1
      have h2 : matchRest (d :: (ds ++ rest)) = none :=
        @matchRest_digits_none (d :: ds) rest hds hnl hr
      simp [matchDigits, hd, h1, h2]

theorem matchDigits_none (acc : Line) {s : Line} (h : ∀ t, t <:+ s → matchUnit t = none) :
    matchDigits acc s = none := by
  induction s generalizing acc with
  | nil => simp [matchDigits, matchRest_none_of h]
  | cons c cs ih =>
    have h1 : matchDigits (acc ++ [c]) cs = none :=
      ih _ (fun t ht => h t (List.suffix_cons_iff.mpr (Or.inr ht)))
    simp [matchDigits, h1, matchRest_none_of h]

theorem FindStringSubmatch_none {s : Line} (h : ∀ t, t <:+ s → matchUnit t = none) :
    FindStringSubmatch s = none := by
  induction s with
  | nil => simp [FindStringSubmatch, matchHere]
  | cons c cs ih =>
    have hcs : ∀ t, t <:+ cs → matchUnit t = none :=
      fun t ht => h t (List.suffix_cons_iff.mpr (Or.inr ht))
    have h1 : matchHere (c :: cs) = none := by
      simp only [matchHere]
      split_ifs
      · exact matchDigits_none _ hcs
      · rfl
    simp [FindStringSubmatch, h1, ih hcs]

theorem FindStringSubmatch_no_digit {s : Line} (h : ∀ c ∈ s, c.isDigit = false) :
    FindStringSubmatch s = none := by
  induction s with
  | nil => simp [FindStringSubmatch, matchHere]
  | cons c cs ih =>
    have hc : c.isDigit = false := h c (by simp)
    simp [FindStringSubmatch, matchHere, hc, ih (fun d hd => h d (by simp [hd]))]

theorem FindStringSubmatch_run (pre ds rest : Line) (hpre : ∀ c ∈ pre, c.isDigit = false)
    (hne : ds ≠ []) (hds : ∀ c ∈ ds, c.isDigit = true)
    (hrest : ∀ c, rest.head? = some c → c.isDigit = false) (hnl : '\n' ∉ rest) :
    FindStringSubmatch (pre ++ (ds ++ rest)) = (matchRest rest).map (fun u => (ds, u)) := by
  induction pre with
  | nil =>
    cases ds with
    | nil => exact absurd rfl hne
    | cons d ds =>
      have hd : d.isDigit = true := hds d (by simp)
      have hds1 : ∀ c ∈ ds, c.isDigit = true := fun c hc => hds c (by simp [hc])
      have h1 := matchDigits_run [d] ds rest hds1 hrest hnl
      cases hr : matchRest rest with
      | some u =>
        rw [hr] at h1
        simp at h1
        simp [FindStringSubmatch, matchHere, hd, h1]
      | none =>
        rw [hr] at h1
        simp at h1
        have h2 : FindStringSubmatch (ds ++ rest) = none := by
          apply FindStringSubmatch_none
          have hnl1 : '\n' ∉ ds ++ rest := by
            intro hmem
            rcases List.mem_append.mp hmem with hm | hm
            · exact absurd (hds1 _ hm) (by decide)
            · exact hnl hm
          exact matchRest_none_suffix hnl1 (matchRest_digits_none hds1 hnl hr)
        simp [FindStringSubmatch, matchHere, hd, h1, h2]
  | cons c cs ih =>
    have hc : c.isDigit = false := hpre c (by simp)
    have := ih (fun d hd => hpre d (by simp [hd]))
    simp [FindStringSubmatch, matchHere, hc, this]

/-! ## `time.ParseDuration` on the tokens `parseDuration` builds -/

theorem le_foldl_digits (ds : Line) (x : Nat) :
    x ≤ ds.foldl (fun n c => n * 10 + (c.toNat - '0'.toNat)) x := by
  induction ds generalizing x with
  | nil => simp
  | cons d ds ih =>
    simp only [List.foldl_cons]
    exact le_trans (by omega) (ih _)

theorem leadingInt_run (ds rest : Line) (x : Nat) (hx : x ≤ 2 ^ 63)
    (hds : ∀ c ∈ ds, c.isDigit = true)
    (hrest : ∀ c, rest.head? = some c → c.isDigit = false) :
    leadingInt x (ds ++ rest) =
      if ds.foldl (fun n c => n * 10 + (c.toNat - '0'.toNat)) x ≤ 2 ^ 63
      then some (ds.foldl (fun n c => n * 10 + (c.toNat - '0'.toNat)) x, rest) else none := by
  induction ds generalizing x with
  | nil =>
    cases rest with
    | nil => simp only [List.append_nil, leadingInt, List.foldl_nil, hx, if_true]
    | cons c cs =>
      have hc : c.isDigit = false := hrest c rfl
      simp only [List.nil_append, leadingInt, hc, List.foldl_nil, hx, if_true]
      simp
  | cons d ds ih =>
    have hd : d.isDigit = true := hds d (by simp)
    have hds1 : ∀ c ∈ ds, c.isDigit = true := fun c hc => hds c (by simp [hc])
    have hmono := le_foldl_digits ds (x * 10 + (d.toNat - '0'.toNat))
    have e63 : (2 : Nat) ^ 63 = 9223372036854775808 := by norm_num
    simp only [List.cons_append, leadingInt, hd, if_true, List.foldl_cons]
    by_cases h1 : x > 2 ^ 63 / 10
    · have : ¬ (ds.foldl (fun n c => n * 10 + (c.toNat - '0'.toNat))
          (x * 10 + (d.toNat - '0'.toNat)) ≤ 2 ^ 63) := by
        rw [e63] at h1 ⊢
        omega
      rw [if_pos h1, if_neg this]
    · by_cases h2 : x * 10 + (d.toNat - '0'.toNat) > 2 ^ 63
      · have : ¬ (ds.foldl (fun n c => n * 10 + (c.toNat - '0'.toNat))
            (x * 10 + (d.toNat - '0'.toNat)) ≤ 2 ^ 63) := by omega
        rw [if_neg h1, if_neg this]
        simp only [h2, if_true]
      · rw [if_neg h1]
        simp only [h2, if_false]
        exact ih _ (by omega) hds1

theorem ParseDuration_token (ds : Line) (u : Char) (unit : Nat) (hne : ds ≠ [])
    (hds : ∀ c ∈ ds, c.isDigit = true)
    (hu : (u = 'h' ∧ unit = Hour) ∨ (u = 'm' ∧ unit = Minute)) :
    ParseDuration (ds ++ [u]) =
      if digitsValue ds * unit ≤ 2 ^ 63 - 1 then some ((digitsValue ds * unit : Nat) : Int)
      else none := by
  have hud : u.isDigit = false := by
    rcases hu with ⟨rfl, -⟩ | ⟨rfl, -⟩ <;> decide
  have hlead := leadingInt_run ds [u] 0 (by norm_num) hds (by simp [hud])
  cases ds with
  | nil => exact absurd rfl hne
  | cons d ds =>
    have hd : d.isDigit = true := hds d (by simp)
    simp only [List.cons_append] at hlead ⊢
    have hzero : ¬ (d :: (ds ++ [u]) = "0".toList) := by
      intro h
      have := congrArg List.length h
      simp at this
    simp only [ParseDuration, hzero, hd, Bool.not_true, Bool.false_eq_true, if_false, hlead]
    have hval : digitsValue (d :: ds) =
        (d :: ds).foldl (fun n c => n * 10 + (c.toNat - '0'.toNat)) 0 := rfl
    rw [hval]
    generalize (d :: ds).foldl (fun n c => n * 10 + (c.toNat - '0'.toNat)) 0 = v
    have htake : List.takeWhile (fun c => !(decide (c = '.') || c.isDigit)) [u] = [u] := by
      rcases hu with ⟨rfl, -⟩ | ⟨rfl, -⟩ <;> decide
    have hdrop : List.dropWhile (fun c => !(decide (c = '.') || c.isDigit)) [u] = [] := by
      rcases hu with ⟨rfl, -⟩ | ⟨rfl, -⟩ <;> decide
    have hunit : unitMap [u] = some unit := by
      rcases hu with ⟨rfl, rfl⟩ | ⟨rfl, rfl⟩ <;> decide
    have hpos : unit = 3600000000000 ∨ unit = 60000000000 := by
      rcases hu with ⟨-, rfl⟩ | ⟨-, rfl⟩
      · left; decide
      · right; decide
    by_cases hv : v ≤ 2 ^ 63
    · simp only [hv, if_true, htake, hdrop, hunit]
      simp only [List.cons_ne_nil, if_false, ne_eq, not_true_eq_false]
      rcases hpos with rfl | rfl
      · norm_num
        split_ifs <;> first | rfl | omega
      · norm_num
        split_ifs <;> first | rfl | omega
    · simp only [hv, if_false]
      have : ¬ (v * unit ≤ 2 ^ 63 - 1) := by
        rcases hpos with rfl | rfl <;> norm_num at hv ⊢ <;> omega
      rw [if_neg this]

/-! ## `parseDuration`: captures and value -/

theorem line_split (line : Line) :
    line = line.takeWhile (fun c => !c.isDigit) ++ (firstDigits line ++ afterFirstDigits line) := by
  simp [firstDigits, afterFirstDigits]

theorem firstDigits_digits (line : Line) : ∀ c ∈ firstDigits line, c.isDigit = true :=
  fun _ hc => List.mem_takeWhile_imp hc

theorem afterFirstDigits_head (line : Line) :
    ∀ c, (afterFirstDigits line).head? = some c → c.isDigit = false := by
  intro c hc
  have := List.head?_dropWhile_not Char.isDigit (line.dropWhile (fun c => !c.isDigit))
  unfold afterFirstDigits at hc
  rw [hc] at this
  simpa using this

theorem firstDigits_eq_nil {line : Line} (h : firstDigits line = []) :
    ∀ c ∈ line, c.isDigit = false := by
  unfold firstDigits at h
  have hd : line.dropWhile (fun c => !c.isDigit) = [] := by
    cases hl : line.dropWhile (fun c => !c.isDigit) with
    | nil => rfl
    | cons x xs =>
      have := List.head?_dropWhile_not (fun c => !c.isDigit) line
      rw [hl] at this
      simp at this
      rw [hl] at h
      simp [List.takeWhile, this] at h
  intro c hc
  have := List.dropWhile_eq_nil_iff.mp hd c hc
  simpa using this

theorem FindStringSubmatch_eq (line : Line) (hnl : '\n' ∉ line) :
    FindStringSubmatch line =
      if firstDigits line = [] then none
      else (matchRest (afterFirstDigits line)).map (fun u => (firstDigits line, u)) := by
  by_cases h : firstDigits line = []
  · rw [if_pos h]
    exact FindStringSubmatch_no_digit (firstDigits_eq_nil h)
  · rw [if_neg h]
    have hnl1 : '\n' ∉ afterFirstDigits line := by
      intro hm
      apply hnl
      rw [line_split line]
      simp [hm]
    have := FindStringSubmatch_run (line.takeWhile (fun c => !c.isDigit)) (firstDigits line)
      (afterFirstDigits line) (fun c hc => by simpa using List.mem_takeWhile_imp hc) h
      (firstDigits_digits line) (afterFirstDigits_head line) hnl1
    rwa [← line_split line] at this

theorem unitWords_unit {w : Line} (hw : w ∈ unitWords) :
    ((ToLower w).take 1 = ['h'] ∧ unitNanos w = Hour) ∨
      ((ToLower w).take 1 = ['m'] ∧ unitNanos w = Minute) := by
  simp [unitWords] at hw
  rcases hw with rfl | rfl | rfl | rfl <;> decide

theorem parseDuration_of_match {line ds w : Line} (h : FindStringSubmatch line = some (ds, w))
    (hne : ds ≠ []) (hds : ∀ c ∈ ds, c.isDigit = true) (hw : w ∈ unitWords) :
    parseDuration line = fitInt64 (digitsValue ds * unitNanos w) := by
  unfold parseDuration
  rw [h]
  simp only
  rcases unitWords_unit hw with ⟨ht, hu⟩ | ⟨ht, hu⟩
  · rw [ht, ParseDuration_token ds 'h' (unitNanos w) hne hds (Or.inl ⟨rfl, hu⟩)]
    unfold fitInt64
    split_ifs <;> simp
  · rw [ht, ParseDuration_token ds 'm' (unitNanos w) hne hds (Or.inr ⟨rfl, hu⟩)]
    unfold fitInt64
    split_ifs <;> simp

theorem parseDuration_of_none {line : Line} (h : FindStringSubmatch line = none) :
    parseDuration line = 0 := by
  unfold parseDuration
  rw [h]

theorem IsLastUnitWord.matchRest {s w : Line} (hnl : '\n' ∉ s) (h : IsLastUnitWord s w) :
    matchRest s = some w := by
  obtain ⟨a, b, rfl, hw, hl⟩ := h
  exact matchRest_last (fun hm => hnl (by simp [hm])) hw hl

theorem matchRest_ne_none_of_word {b w c : Line} (hnl : '\n' ∉ b ++ (w ++ c))
    (hw : w ∈ unitWords) : matchRest (b ++ (w ++ c)) ≠ none := by
  intro h
  have := matchRest_none_suffix hnl h (w ++ c) ⟨b, rfl⟩
  rw [matchUnit_append hw] at this
  exact absurd this (by simp)

theorem matchDigits_ne_none (acc : Line) {s : Line} (h : matchRest s ≠ none) :
    matchDigits acc s ≠ none := by
  obtain ⟨u, hu⟩ := Option.ne_none_iff_exists'.mp h
  cases s with
  | nil => simp [matchDigits, hu]
  | cons c cs =>
    unfold matchDigits
    split
    · simp
    · simp [hu]

theorem FindStringSubmatch_ne_none (a : Line) {d : Char} {rest : Line}
    (hd : d.isDigit = true) (h : matchRest rest ≠ none) :
    FindStringSubmatch (a ++ d :: rest) ≠ none := by
  induction a with
  | nil =>
    have := matchDigits_ne_none [d] h
    obtain ⟨r, hr⟩ := Option.ne_none_iff_exists'.mp this
    simp [FindStringSubmatch, matchHere, hd, hr]
  | cons x xs ih =>
    simp only [List.cons_append, FindStringSubmatch]
    split
    · simp
    · exact ih

theorem HasDuration_iff (line : Line) (hnl : '\n' ∉ line) :
    HasDuration line ↔ FindStringSubmatch line ≠ none := by
  constructor
  · rintro ⟨a, d, b, w, c, rfl, hd, hw⟩
    have hnl1 : '\n' ∉ b ++ (w ++ c) := by
      intro hm
      apply hnl
      simp only [List.append_assoc, List.cons_append, List.mem_append, List.mem_cons] at hm ⊢
      tauto
    have := FindStringSubmatch_ne_none a hd (matchRest_ne_none_of_word hnl1 hw)
    simpa [List.append_assoc] using this
  · intro h
    rw [FindStringSubmatch_eq line hnl] at h
    by_cases hf : firstDigits line = []
    · simp [hf] at h
    · rw [if_neg hf] at h
      obtain ⟨w, hw⟩ : ∃ w, matchRest (afterFirstDigits line) = some w := by
        cases hm : matchRest (afterFirstDigits line) with
        | none => simp [hm] at h
        | some w => exact ⟨w, rfl⟩
      have hnl1 : '\n' ∉ afterFirstDigits line := by
        intro hm
        apply hnl
        rw [line_split line]
        simp [hm]
      obtain ⟨m, p, hmp, hwu, -⟩ := matchRest_some_last hnl1 hw
      cases hfd : firstDigits line with
      | nil => exact absurd hfd hf
      | cons d ds =>
        refine ⟨line.takeWhile (fun c => !c.isDigit), d, ds ++ m, w, p, ?_, ?_, hwu⟩
        · conv_lhs => rw [line_split line, hfd, hmp]
          simp [List.append_assoc]
        · exact firstDigits_digits line d (by simp [hfd])

/-! ## Claims on `parseDuration` -/

/-- C1, as stated, fails: the line `5 HOURS` has a digit followed by the word
`hour` in upper case, the claim makes its duration five hours, and
`parseDuration` returns zero because the pattern knows only the spellings
`Hour`, `Minute`, `hour` and `minute`.  It fails too on `3000000 hours`, a
count of hours beyond the range of an `int64` of nanoseconds, which gives
zero. -/
theorem parseDuration_upper_case_unit :
    "5 HOURS".toList = [] ++ '5' :: " ".toList ++ "HOUR".toList ++ "S".toList ∧
      '5'.isDigit = true ∧ ToLower "HOUR".toList = "hour".toList ∧
      parseDuration "5 HOURS".toList = 0 ∧
      (0 : Duration) ≠ ((digitsValue "5".toList * Hour : Nat) : Int) ∧
      parseDuration "3000000 hours".toList = 0 ∧
      (0 : Duration) ≠ ((digitsValue "3000000".toList * Hour : Nat) : Int) := by
  decide

/-- C1, amended: on a line (a text without newline) that has a digit followed
later by one of the words `Hour`, `Minute`, `hour`, `minute`, some unit word
starts last after the first run of digits, and `parseDuration` is the number
that first run denotes counted in the unit of that last word, when the count
fits in an `int64`, and zero when it does not; on every other line
`parseDuration` is zero. -/
theorem parseDuration_spec (line : Line) (hnl : '\n' ∉ line) :
    (HasDuration line → ∃ w, IsLastUnitWord (afterFirstDigits line) w) ∧
    (∀ w, IsLastUnitWord (afterFirstDigits line) w →
      parseDuration line = fitInt64 (digitsValue (firstDigits line) * unitNanos w)) ∧
    (¬ HasDuration line → parseDuration line = 0) := by
  have hnl1 : '\n' ∉ afterFirstDigits line := by
    intro hm
    apply hnl
    rw [line_split line]
    simp [hm]
  have heq := FindStringSubmatch_eq line hnl
  refine ⟨?_, ?_, ?_⟩
  · intro h
    have hne := (HasDuration_iff line hnl).mp h
    rw [heq] at hne
    by_cases hf : firstDigits line = []
    · simp [hf] at hne
    · rw [if_neg hf] at hne
      cases hm : matchRest (afterFirstDigits line) with
      | none => simp [hm] at hne
      | some w => exact ⟨w, matchRest_some_last hnl1 hm⟩
  · intro w hw
    have hm := hw.matchRest hnl1
    have hf : firstDigits line ≠ [] := by
      intro hf
      have hall := firstDigits_eq_nil hf
      have hd : line.dropWhile (fun c => !c.isDigit) = [] :=
        List.dropWhile_eq_nil_iff.mpr (fun c hc => by simp [hall c hc])
      have : afterFirstDigits line = [] := by simp [afterFirstDigits, hd]
      rw [this] at hm
      simp [matchRest, matchUnit_nil] at hm
    rw [if_neg hf, hm] at heq
    obtain ⟨_, _, -, hwu, -⟩ := hw
    exact parseDuration_of_match heq hf (firstDigits_digits line) hwu
  · intro h
    apply parseDuration_of_none
    by_contra hne
    exact h ((HasDuration_iff line hnl).mpr hne)

/-- C1, amended, on the line of scenario A: the line has no newline, the unit
word that starts last after its first run of digits is `Minute`, and its
duration is 30 minutes. -/
theorem parseDuration_spec_witness :
    '\n' ∉ "Create: schema.DefaultTimeout(30 * time.Minute)".toList ∧
      IsLastUnitWord
        (afterFirstDigits "Create: schema.DefaultTimeout(30 * time.Minute)".toList)
        "Minute".toList ∧
      parseDuration "Create: schema.DefaultTimeout(30 * time.Minute)".toList =
        fitInt64 (digitsValue
          (firstDigits "Create: schema.DefaultTimeout(30 * time.Minute)".toList) *
            unitNanos "Minute".toList) :=
  ⟨by decide, matchRest_some_last (by decide) (by decide),
    (parseDuration_spec "Create: schema.DefaultTimeout(30 * time.Minute)".toList
      (by decide)).2.1 "Minute".toList (matchRest_some_last (by decide) (by decide))⟩

/-- C2, as stated, fails: on the line `30 minutes, later 2 hours` the first
unit keyword after the first run of digits is `minute`, the claim makes the
result 30 minutes, and `parseDuration` captures `hour` and returns 30 hours. -/
theorem parseDuration_not_first_unit :
    FindStringSubmatch "30 minutes, later 2 hours".toList =
        some ("30".toList, "hour".toList) ∧
      parseDuration "30 minutes, later 2 hours".toList = ((30 * Hour : Nat) : Int) ∧
      parseDuration "30 minutes, later 2 hours".toList ≠ ((30 * Minute : Nat) : Int) := by
  decide

/-- C2, amended: on every line (a text without newline) on which the pattern
matches, the captures are the first run of digits of the line and the unit
word that starts last after that run, whatever other numbers and unit words
the line has, and `parseDuration` is the value of these two; so a line with
`30 minutes` and later `2 hours` gives 30 hours. -/
theorem parseDuration_first_digits_last_unit (line ds w : Line) (hnl : '\n' ∉ line) :
    (FindStringSubmatch line = some (ds, w) ↔
      ds ≠ [] ∧ ds = firstDigits line ∧ IsLastUnitWord (afterFirstDigits line) w) ∧
    (FindStringSubmatch line = some (ds, w) →
      parseDuration line = fitInt64 (digitsValue ds * unitNanos w)) ∧
    parseDuration "30 minutes, later 2 hours".toList = ((30 * Hour : Nat) : Int) := by
  have hnl1 : '\n' ∉ afterFirstDigits line := by
    intro hm
    apply hnl
    rw [line_split line]
    simp [hm]
  have heq := FindStringSubmatch_eq line hnl
  have key : FindStringSubmatch line = some (ds, w) ↔
      ds ≠ [] ∧ ds = firstDigits line ∧ IsLastUnitWord (afterFirstDigits line) w := by
    constructor
    · intro h
      rw [heq] at h
      by_cases hf : firstDigits line = []
      · simp [hf] at h
      · rw [if_neg hf] at h
        cases hm : matchRest (afterFirstDigits line) with
        | none => simp [hm] at h
        | some u =>
          simp [hm] at h
          obtain ⟨h1, h2⟩ := h
          subst h1 h2
          exact ⟨hf, rfl, matchRest_some_last hnl1 hm⟩
    · rintro ⟨hne, rfl, hw⟩
      rw [heq, if_neg hne, hw.matchRest hnl1]
      rfl
  refine ⟨key, ?_, by decide⟩
  intro h
  obtain ⟨hne, rfl, _, _, -, hwu, -⟩ := key.mp h
  exact parseDuration_of_match h hne (firstDigits_digits line) hwu

/-- C2, amended, on a line with two numbers and two unit words: the captures
are `30` and `hour`, the first run of digits and the last unit word, and the
duration is 30 hours. -/
theorem parseDuration_first_digits_last_unit_witness :
    '\n' ∉ "30 minutes, later 2 hours".toList ∧
      FindStringSubmatch "30 minutes, later 2 hours".toList =
        some ("30".toList, "hour".toList) ∧
      "30".toList = firstDigits "30 minutes, later 2 hours".toList ∧
      IsLastUnitWord (afterFirstDigits "30 minutes, later 2 hours".toList) "hour".toList ∧
      parseDuration "30 minutes, later 2 hours".toList =
        fitInt64 (digitsValue "30".toList * unitNanos "hour".toList) :=
  ⟨by decide, by decide,
    ((parseDuration_first_digits_last_unit "30 minutes, later 2 hours".toList "30".toList
      "hour".toList (by decide)).1.mp (by decide)).2.1,
    ((parseDuration_first_digits_last_unit "30 minutes, later 2 hours".toList "30".toList
      "hour".toList (by decide)).1.mp (by decide)).2.2,
    (parseDuration_first_digits_last_unit "30 minutes, later 2 hours".toList "30".toList
      "hour".toList (by decide)).2.1 (by decide)⟩

/-! ## The record parsers: one line, then a whole file -/

theorem Timeout.get_set (t : Timeout) (f g : Field) (d : Duration) :
    (t.set f d).get g = if g = f then d else t.get g := by
  cases f <;> cases g <;> simp [Timeout.set, Timeout.get]

theorem goLine_eq (t : Timeout) (line : Line) :
    goLine t line =
      match firstMarker goMarker line with
      | none => t
      | some f => t.set f (parseDuration line) := by
  unfold goLine firstMarker
  simp only [List.find?, goMarker]
  generalize Contains line "Create:".toList = c1
  generalize Contains line "Read:".toList = c2
  generalize Contains line "Update:".toList = c3
  generalize Contains line "Delete:".toList = c4
  cases c1 <;> cases c2 <;> cases c3 <;> cases c4 <;> rfl

theorem mdLine_eq (t : Timeout) (line : Line) :
    mdLine t line =
      match firstMarker mdMarker line with
      | none => t
      | some f => t.set f (parseDuration line) := by
  unfold mdLine firstMarker
  simp only [List.find?, mdMarker]
  generalize Contains line "`create`".toList = c1
  generalize Contains line "`read`".toList = c2
  generalize Contains line "`update`".toList = c3
  generalize Contains line "`delete`".toList = c4
  cases c1 <;> cases c2 <;> cases c3 <;> cases c4 <;> rfl

theorem step_get {step : Timeout → Line → Timeout} {marker : Field → Line}
    (hstep : ∀ t line, step t line =
      match firstMarker marker line with
      | none => t
      | some f => t.set f (parseDuration line))
    (t : Timeout) (line : Line) (f : Field) :
    (step t line).get f =
      if firstMarker marker line = some f then parseDuration line else t.get f := by
  rw [hstep]
  cases h : firstMarker marker line with
  | none => simp
  | some g =>
    simp only [Timeout.get_set, Option.some.injEq]
    by_cases hfg : f = g
    · simp [hfg]
    · have : ¬ g = f := fun e => hfg e.symm
      simp [hfg, this]

theorem foldl_get_unchanged {step : Timeout → Line → Timeout} {marker : Field → Line}
    (hstep : ∀ t line, step t line =
      match firstMarker marker line with
      | none => t
      | some f => t.set f (parseDuration line))
    (f : Field) (lines : List Line) (t : Timeout)
    (h : ∀ l ∈ lines, firstMarker marker l ≠ some f) :
    (lines.foldl step t).get f = t.get f := by
  induction lines generalizing t with
  | nil => rfl
  | cons l ls ih =>
    simp only [List.foldl_cons]
    rw [ih _ (fun y hy => h y (by simp [hy])), step_get hstep, if_neg (h l (by simp))]

theorem foldl_get_last {step : Timeout → Line → Timeout} {marker : Field → Line}
    (hstep : ∀ t line, step t line =
      match firstMarker marker line with
      | none => t
      | some f => t.set f (parseDuration line))
    (f : Field) (before after : List Line) (x : Line) (t : Timeout)
    (hx : firstMarker marker x = some f)
    (h : ∀ l ∈ after, firstMarker marker l ≠ some f) :
    ((before ++ x :: after).foldl step t).get f = parseDuration x := by
  rw [List.foldl_append, List.foldl_cons, foldl_get_unchanged hstep f after _ h,
    step_get hstep, if_pos hx]

theorem firstMarker_contains {marker : Field → Line} {line : Line} {f : Field}
    (h : firstMarker marker line = some f) : Contains line (marker f) = true := by
  unfold firstMarker at h
  simpa using List.find?_some h

theorem Timeout.ext_get {a b : Timeout} (h : ∀ f, a.get f = b.get f) : a = b := by
  cases a
  cases b
  have h1 := h .Create
  have h2 := h .Read
  have h3 := h .Update
  have h4 := h .Delete
  simp only [Timeout.get] at h1 h2 h3 h4
  simp [h1, h2, h3, h4]

/-! ## Claims on the record parsers -/

/-- C3: in both record parsers, processing a line changes the record only at
the field of the first marker (in the order Create, Read, Update, Delete) the
line contains, which takes the value `parseDuration` gives the line; the three
other fields keep their values, and a line with no marker leaves the record as
it is. -/
theorem line_sets_first_marker_only (t : Timeout) (line : Line) :
    (goLine t line =
      match firstMarker goMarker line with
      | none => t
      | some f => t.set f (parseDuration line)) ∧
    (mdLine t line =
      match firstMarker mdMarker line with
      | none => t
      | some f => t.set f (parseDuration line)) ∧
    (∀ (f g : Field) (d : Duration), (t.set f d).get g = if g = f then d else t.get g) :=
  ⟨goLine_eq t line, mdLine_eq t line, fun f g d => Timeout.get_set t f g d⟩

/-- C4, as stated, fails: in a file whose last line with the marker `Read:`
also has the marker `Create:`, that line sets Create only, and Read keeps the
value of an earlier line; likewise in the documentation format. -/
theorem last_marker_line_not_used :
    Contains "Create: Read: 10 minute".toList "Read:".toList = true ∧
      parseDuration "Create: Read: 10 minute".toList = ((10 * Minute : Nat) : Int) ∧
      parseTimeoutsFromGoFile
          (fun _ => .ok ⟨["Read: 5 minute".toList, "Create: Read: 10 minute".toList], none⟩)
          "x_resource.go".toList =
        (⟨((10 * Minute : Nat) : Int), ((5 * Minute : Nat) : Int), 0, 0⟩, none) ∧
      Contains "`create` and `read` 10 minute".toList "`read`".toList = true ∧
      parseDuration "`create` and `read` 10 minute".toList = ((10 * Minute : Nat) : Int) ∧
      parseTimeoutsFromMarkdownFile
          (fun _ => .ok
            ⟨["`read` 5 minute".toList, "`create` and `read` 10 minute".toList], none⟩)
          "x.html.markdown".toList =
        (⟨((10 * Minute : Nat) : Int), ((5 * Minute : Nat) : Int), 0, 0⟩, none) := by
  decide

/-- C4, amended: in both record parsers, for every file read without error and
every field, when some line has that field's marker as its first marker (it
contains the marker of the field and of no field tested before it), the field
of the returned record is `parseDuration` of the last such line. -/
theorem last_first_marker_line_wins (fs : Files) (filePath : Line)
    (before after : List Line) (x : Line) (f : Field)
    (hfile : fs filePath = .ok ⟨before ++ x :: after, none⟩) :
    (firstMarker goMarker x = some f →
      (∀ y ∈ after, firstMarker goMarker y ≠ some f) →
      (parseTimeoutsFromGoFile fs filePath).2 = none ∧
        (parseTimeoutsFromGoFile fs filePath).1.get f = parseDuration x) ∧
    (firstMarker mdMarker x = some f →
      (∀ y ∈ after, firstMarker mdMarker y ≠ some f) →
      (parseTimeoutsFromMarkdownFile fs filePath).2 = none ∧
        (parseTimeoutsFromMarkdownFile fs filePath).1.get f = parseDuration x) := by
  constructor
  · intro hx hafter
    simp only [parseTimeoutsFromGoFile, hfile, true_and]
    exact foldl_get_last goLine_eq f before after x _ hx hafter
  · intro hx hafter
    simp only [parseTimeoutsFromMarkdownFile, hfile, true_and]
    exact foldl_get_last mdLine_eq f before after x _ hx hafter

/-- C4, amended, on a file of three lines whose last line has the marker of
Read after the marker of Create. -/
theorem last_first_marker_line_wins_witness :
    (parseTimeoutsFromGoFile
        (fun _ => .ok ⟨["Read: `read` 5 minute".toList] ++ "Read: `read` 7 minute".toList ::
          ["Create: `create` Read: `read` 10 minute".toList], none⟩) []).2 = none ∧
      (parseTimeoutsFromGoFile
        (fun _ => .ok ⟨["Read: `read` 5 minute".toList] ++ "Read: `read` 7 minute".toList ::
          ["Create: `create` Read: `read` 10 minute".toList], none⟩) []).1.get Field.Read =
        parseDuration "Read: `read` 7 minute".toList :=
  (last_first_marker_line_wins
    (fun _ => .ok ⟨["Read: `read` 5 minute".toList] ++ "Read: `read` 7 minute".toList ::
      ["Create: `create` Read: `read` 10 minute".toList], none⟩) []
    ["Read: `read` 5 minute".toList] ["Create: `create` Read: `read` 10 minute".toList]
    "Read: `read` 7 minute".toList Field.Read rfl).1 (by decide) (by decide)

/-- C5: in both record parsers, for every file read without error, a field
whose marker no line of the file contains is zero in the returned record, and
a file none of whose lines contains a marker gives the record of four
zeros. -/
theorem unmarked_field_zero (fs : Files) (filePath : Line) (lines : List Line)
    (hfile : fs filePath = .ok ⟨lines, none⟩) :
    (∀ f, (∀ l ∈ lines, Contains l (goMarker f) = false) →
      (parseTimeoutsFromGoFile fs filePath).1.get f = 0) ∧
    (∀ f, (∀ l ∈ lines, Contains l (mdMarker f) = false) →
      (parseTimeoutsFromMarkdownFile fs filePath).1.get f = 0) ∧
    ((∀ f, ∀ l ∈ lines, Contains l (goMarker f) = false) →
      parseTimeoutsFromGoFile fs filePath = (Timeout.zero, none)) ∧
    ((∀ f, ∀ l ∈ lines, Contains l (mdMarker f) = false) →
      parseTimeoutsFromMarkdownFile fs filePath = (Timeout.zero, none)) := by
  have hgo : ∀ f, (∀ l ∈ lines, Contains l (goMarker f) = false) →
      (lines.foldl goLine Timeout.zero).get f = 0 := by
    intro f h
    rw [foldl_get_unchanged goLine_eq f lines _
      (fun l hl e => by simpa [h l hl] using firstMarker_contains e)]
    cases f <;> rfl
  have hmd : ∀ f, (∀ l ∈ lines, Contains l (mdMarker f) = false) →
      (lines.foldl mdLine Timeout.zero).get f = 0 := by
    intro f h
    rw [foldl_get_unchanged mdLine_eq f lines _
      (fun l hl e => by simpa [h l hl] using firstMarker_contains e)]
    cases f <;> rfl
  refine ⟨?_, ?_, ?_, ?_⟩
  · intro f h
    simpa only [parseTimeoutsFromGoFile, hfile] using hgo f h
  · intro f h
    simpa only [parseTimeoutsFromMarkdownFile, hfile] using hmd f h
  · intro h
    simp only [parseTimeoutsFromGoFile, hfile]
    congr 1
    apply Timeout.ext_get
    intro f
    rw [hgo f (h f)]
    cases f <;> rfl
  · intro h
    simp only [parseTimeoutsFromMarkdownFile, hfile]
    congr 1
    apply Timeout.ext_get
    intro f
    rw [hmd f (h f)]
    cases f <;> rfl

/-- C5 on a file with markers for Create and Delete only: Read is zero in the
record of the definition parser. -/
theorem unmarked_field_zero_witness :
    (parseTimeoutsFromGoFile
      (fun _ => .ok ⟨["Create: 30 minute".toList, "Delete: 2 hour".toList], none⟩)
      []).1.get Field.Read = 0 :=
  (unmarked_field_zero
    (fun _ => .ok ⟨["Create: 30 minute".toList, "Delete: 2 hour".toList], none⟩) []
    ["Create: 30 minute".toList, "Delete: 2 hour".toList] rfl).1 Field.Read (by decide)

/-! ## The name mapper on ordinary names -/

theorem Contains_iff (s sub : Line) : Contains s sub = true ↔ sub <:+: s := by
  induction s with
  | nil =>
    simp only [Contains, List.isPrefixOf_iff_prefix]
    constructor
    · intro h
      exact h.isInfix
    · intro h
      have : sub = [] := List.eq_nil_of_infix_nil h
      simp [this]
  | cons c cs ih =>
    simp only [Contains, Bool.or_eq_true, List.isPrefixOf_iff_prefix, ih, List.infix_cons_iff]

theorem Replace1_of_not_contains (old new s : Line) (h : Contains s old = false) :
    Replace1 old new s = s := by
  induction s with
  | nil => rfl
  | cons c cs ih =>
    simp only [Contains, Bool.or_eq_false_iff] at h
    simp [Replace1, h.1, ih h.2]

theorem Replace1_suffix (old stem : Line)
    (honly : ∀ a b, stem ++ old = a ++ old ++ b → b = []) :
    Replace1 old [] (stem ++ old) = stem := by
  induction stem with
  | nil =>
    cases old with
    | nil => rfl
    | cons o os => simp [Replace1]
  | cons c st ih =>
    have hnot : old.isPrefixOf (c :: (st ++ old)) = false := by
      cases hp : old.isPrefixOf (c :: (st ++ old)) with
      | false => rfl
      | true =>
        obtain ⟨b, hb⟩ := List.isPrefixOf_iff_prefix.mp hp
        have hb0 := honly [] b (by simpa using hb.symm)
        subst hb0
        have := congrArg List.length hb
        simp at this
        omega
    have ih' := ih (fun a b hab => honly (c :: a) b (by simp [hab]))
    show Replace1 old [] (c :: (st ++ old)) = c :: st
    rw [Replace1, hnot, ih']
    rfl

theorem mdFileName_resource (path stem : Line)
    (hbase : Base path = stem ++ "_resource.go".toList)
    (honly : ∀ a b, stem ++ "_resource.go".toList = a ++ "_resource.go".toList ++ b → b = [])
    (hother : Contains stem "_data_source.go".toList = false) :
    mdFileName path = stem ++ ".html.markdown".toList := by
  unfold mdFileName extractResourceName
  simp only [hbase, Replace1_suffix _ _ honly, Replace1_of_not_contains _ _ _ hother]

theorem mdFileName_data_source (path stem : Line)
    (hbase : Base path = stem ++ "_data_source.go".toList)
    (honly : ∀ a b,
      stem ++ "_data_source.go".toList = a ++ "_data_source.go".toList ++ b → b = [])
    (hother : Contains (stem ++ "_data_source.go".toList) "_resource.go".toList = false) :
    mdFileName path = stem ++ ".html.markdown".toList := by
  unfold mdFileName extractResourceName
  simp only [hbase, Replace1_of_not_contains _ _ _ hother, Replace1_suffix _ _ honly]

theorem docRootDir_resource (goFileName rootDir : Line)
    (h : HasSuffix goFileName "_resource.go".toList = true) :
    docRootDir goFileName rootDir = rootDir ++ "/website/docs/r/".toList := by
  have hc : Contains goFileName "_resource.go".toList = true := by
    rw [Contains_iff]
    exact (List.isSuffixOf_iff_suffix.mp h).isInfix
  unfold docRootDir
  rw [if_pos hc]

theorem docRootDir_data_source (goFileName rootDir : Line)
    (h : Contains goFileName "_resource.go".toList = false) :
    docRootDir goFileName rootDir = rootDir ++ "/website/docs/d/".toList := by
  unfold docRootDir
  rw [h]
  rfl

/-! ## Claims on the name mapper, the locator and the verdict -/

/-- C6 at a failing input: the base name `aws_resource.google_resource.go`
ends in `_resource.go`; without that trailing suffix it is
`aws_resource.google`, and the documentation file name computed is
`awsogle_resource.go.html.markdown`, the first occurrence of `_resource.go`
being the one removed. -/
theorem mdFileName_removes_first_occurrence :
    Base "/repo/internal/aws_resource.google_resource.go".toList =
        "aws_resource.google".toList ++ "_resource.go".toList ∧
      isDefinitionFile "/repo/internal/aws_resource.google_resource.go".toList = true ∧
      mdFileName "/repo/internal/aws_resource.google_resource.go".toList =
        "awsogle_resource.go.html.markdown".toList ∧
      mdFileName "/repo/internal/aws_resource.google_resource.go".toList ≠
        "aws_resource.google".toList ++ ".html.markdown".toList := by
  decide

/-- C7 at a failing input: the source path `pkg_resource.go/x_data_source.go`
ends in `_data_source.go` and passes the guard of `main`, and the search root
is the directory of resource documentation, `/repo/website/docs/r/`, because
the path contains `_resource.go`. -/
theorem docRootDir_tests_containment :
    HasSuffix "pkg_resource.go/x_data_source.go".toList "_data_source.go".toList = true ∧
      HasSuffix "pkg_resource.go/x_data_source.go".toList "_resource.go".toList = false ∧
      isDefinitionFile "pkg_resource.go/x_data_source.go".toList = true ∧
      docRootDir "pkg_resource.go/x_data_source.go".toList "/repo".toList =
        "/repo/website/docs/r/".toList ∧
      docRootDir "pkg_resource.go/x_data_source.go".toList "/repo".toList ≠
        "/repo/website/docs/d/".toList := by
  decide

/-- C8 at a failing input: under a root with the directories `a` and `b`, each
holding a file `widget.html.markdown`, the walk meets no error, the first file
of that name in traversal order is the one in `a`, and `findFile` returns the
one in `b`, found later. -/
theorem findFile_returns_later_match :
    findFileCalls
        (.dir "r".toList
          [.dir "a".toList [.file "widget.html.markdown".toList],
           .dir "b".toList [.file "widget.html.markdown".toList]])
        "/repo/website/docs/r/".toList "widget.html.markdown".toList =
      [("/repo/website/docs/r/".toList, .entry "r".toList true),
       ("/repo/website/docs/r/a".toList, .entry "a".toList true),
       ("/repo/website/docs/r/a/widget.html.markdown".toList,
         .entry "widget.html.markdown".toList false),
       ("/repo/website/docs/r/b".toList, .entry "b".toList true),
       ("/repo/website/docs/r/b/widget.html.markdown".toList,
         .entry "widget.html.markdown".toList false)] ∧
    findFile
        (.dir "r".toList
          [.dir "a".toList [.file "widget.html.markdown".toList],
           .dir "b".toList [.file "widget.html.markdown".toList]])
        "/repo/website/docs/r/".toList "widget.html.markdown".toList =
      ("/repo/website/docs/r/b/widget.html.markdown".toList, none) := by
  decide

/-! ## The walk of `findFile` -/

theorem Clean_ne_nil (path : Line) : Clean path ≠ [] := by
  unfold Clean
  simp only
  split_ifs <;> simp_all

theorem Join_ne_nil {dir : Line} (name : Line) (h : dir ≠ []) : Join dir name ≠ [] := by
  unfold Join
  rw [if_neg h]
  split_ifs <;> exact Clean_ne_nil _

mutual
theorem walk_logged {σ : Type} (fn : WalkFunc σ) (path : Line) :
    ∀ (n : Node) (s : σ) (log : List (Line × Visit)),
      (walk (logged fn) path n (s, log)).1.1 = (walk fn path n s).1 ∧
        (walk (logged fn) path n (s, log)).2 = (walk fn path n s).2
  | .file name, s, log => by simp [walk, logged]
  | .unreadable name err, s, log => by simp [walk, logged]
  | .broken name err, s, log => by simp [walk, logged]
  | .dir name entries, s, log => by
    simp only [walk, logged]
    rcases h : fn s path (.entry name true) with ⟨s1, r⟩
    cases r with
    | nil => exact walkNames_logged fn path entries s1 _
    | SkipDir => simp
    | error e => simp
theorem walkNames_logged {σ : Type} (fn : WalkFunc σ) (path : Line) :
    ∀ (l : List Node) (s : σ) (log : List (Line × Visit)),
      (walkNames (logged fn) path l (s, log)).1.1 = (walkNames fn path l s).1 ∧
        (walkNames (logged fn) path l (s, log)).2 = (walkNames fn path l s).2
  | [], s, log => by simp [walkNames]
  | .broken name err :: rest, s, log => by
    simp only [walkNames, logged]
    rcases h : fn s (Join path name) (.lstatError err) with ⟨s1, r⟩
    cases r with
    | nil => exact walkNames_logged fn path rest s1 _
    | SkipDir => exact walkNames_logged fn path rest s1 _
    | error e => simp
  | .file name :: rest, s, log => by
    have h1 := walk_logged fn (Join path name) (.file name) s log
    simp only [walkNames, Node.name, Node.isDir]
    rcases h : walk fn (Join path name) (.file name) s with ⟨s1, r⟩
    rcases h' : walk (logged fn) (Join path name) (.file name) (s, log) with ⟨⟨s1', log'⟩, r'⟩
    rw [h, h'] at h1
    simp only at h1
    obtain ⟨rfl, rfl⟩ := h1
    cases r' with
    | nil => exact walkNames_logged fn path rest _ _
    | SkipDir => simp
    | error e => simp
  | .dir name entries :: rest, s, log => by
    have h1 := walk_logged fn (Join path name) (.dir name entries) s log
    simp only [walkNames, Node.name, Node.isDir]
    rcases h : walk fn (Join path name) (.dir name entries) s with ⟨s1, r⟩
    rcases h' : walk (logged fn) (Join path name) (.dir name entries) (s, log) with
      ⟨⟨s1', log'⟩, r'⟩
    rw [h, h'] at h1
    simp only at h1
    obtain ⟨rfl, rfl⟩ := h1
    cases r' with
    | nil => exact walkNames_logged fn path rest _ _
    | SkipDir => simpa using walkNames_logged fn path rest _ _
    | error e => simp
  | .unreadable name err :: rest, s, log => by
    have h1 := walk_logged fn (Join path name) (.unreadable name err) s log
    simp only [walkNames, Node.name, Node.isDir]
    rcases h : walk fn (Join path name) (.unreadable name err) s with ⟨s1, r⟩
    rcases h' : walk (logged fn) (Join path name) (.unreadable name err) (s, log) with
      ⟨⟨s1', log'⟩, r'⟩
    rw [h, h'] at h1
    simp only at h1
    obtain ⟨rfl, rfl⟩ := h1
    cases r' with
    | nil => exact walkNames_logged fn path rest _ _
    | SkipDir => simpa using walkNames_logged fn path rest _ _
    | error e => simp
end

theorem walkNames_cons {σ : Type} {fn : WalkFunc σ}
    (hfn : ∀ s p e, ∃ s1 e1, fn s p (.lstatError e) = (s1, .error e1))
    (path : Line) (c : Node) (rest : List Node) (s : σ) :
    walkNames fn path (c :: rest) s =
      match walk fn (Join path c.name) c s with
      | (s1, .nil) => walkNames fn path rest s1
      | (s1, .SkipDir) => if c.isDir then walkNames fn path rest s1 else (s1, .SkipDir)
      | (s1, .error e) => (s1, .error e) := by
  cases c with
  | file name => simp [walkNames]
  | dir name entries => simp [walkNames]
  | unreadable name err => simp [walkNames]
  | broken name err =>
    obtain ⟨s1, e1, h⟩ := hfn s (Join path name) err
    simp [walkNames, walk, Node.name, h]

theorem findFileFn_lstatError (fileName : Line) :
    ∀ s p e, ∃ s1 e1, findFileFn fileName s p (.lstatError e) = (s1, .error e1) :=
  fun s _ e => ⟨s, e, rfl⟩

theorem logged_findFileFn_lstatError (fileName : Line) :
    ∀ s p e, ∃ s1 e1, logged (findFileFn fileName) s p (.lstatError e) = (s1, .error e1) :=
  fun s p e => ⟨(s.1, s.2 ++ [(p, Visit.lstatError e)]), e, rfl⟩

theorem errorsOf_append (a b : List (Line × Visit)) :
    errorsOf (a ++ b) = errorsOf a ++ errorsOf b := by
  simp [errorsOf]

mutual
theorem walk_errors (fileName path : Line) :
    ∀ (n : Node) (s : Line) (log : List (Line × Visit)),
      errorsOf (walk (logged (findFileFn fileName)) path n (s, log)).1.2 =
        errorsOf log ++ (walk (logged (findFileFn fileName)) path n (s, log)).2.errors
  | .file name, s, log => by
    simp only [walk, logged, findFileFn]
    split_ifs <;> simp [errorsOf, WalkResult.errors, Visit.err]
  | .unreadable name err, s, log => by
    simp [walk, logged, findFileFn, errorsOf, WalkResult.errors, Visit.err]
  | .broken name err, s, log => by
    simp [walk, logged, findFileFn, errorsOf, WalkResult.errors, Visit.err]
  | .dir name entries, s, log => by
    simp only [walk, logged, findFileFn]
    split_ifs
    · simp [errorsOf, WalkResult.errors, Visit.err]
    · have := walkNames_errors fileName path entries s (log ++ [(path, .entry name true)])
      simp only [this, errorsOf_append]
      simp [errorsOf, Visit.err]
theorem walkNames_errors (fileName path : Line) :
    ∀ (l : List Node) (s : Line) (log : List (Line × Visit)),
      errorsOf (walkNames (logged (findFileFn fileName)) path l (s, log)).1.2 =
        errorsOf log ++ (walkNames (logged (findFileFn fileName)) path l (s, log)).2.errors
  | [], s, log => by simp [walkNames, WalkResult.errors]
  | c :: rest, s, log => by
    have hc := walk_errors fileName (Join path c.name) c s log
    rw [walkNames_cons (logged_findFileFn_lstatError fileName)]
    rcases h : walk (logged (findFileFn fileName)) (Join path c.name) c (s, log) with
      ⟨⟨s1, log1⟩, r⟩
    rw [h] at hc
    simp only at hc
    cases r with
    | nil =>
      simp only
      rw [walkNames_errors fileName path rest s1 log1, hc]
      simp [WalkResult.errors]
    | SkipDir =>
      simp only
      split_ifs
      · rw [walkNames_errors fileName path rest s1 log1, hc]
        simp [WalkResult.errors]
      · simpa using hc
    | error e => simpa using hc
end

mutual
theorem walk_found (fileName : Line) :
    ∀ (n : Node) (path : Line) (s : Line), path ≠ [] →
      (s ≠ [] → (walk (findFileFn fileName) path n s).1 ≠ []) ∧
      ((walk (findFileFn fileName) path n s).2 = .SkipDir →
        (walk (findFileFn fileName) path n s).1 ≠ []) ∧
      (fileName ∈ n.names → (walk (findFileFn fileName) path n s).2.errors = [] →
        (walk (findFileFn fileName) path n s).1 ≠ [])
  | .file name, path, s, hp => by
    simp only [walk, findFileFn, Node.names]
    split_ifs with h
    · simp [hp]
    · simp only [List.mem_singleton]
      refine ⟨fun hs => hs, by simp, fun hm => absurd hm.symm h⟩
  | .unreadable name err, path, s, hp => by
    simp [walk, findFileFn, WalkResult.errors]
  | .broken name err, path, s, hp => by
    simp [walk, findFileFn, WalkResult.errors]
  | .dir name entries, path, s, hp => by
    simp only [walk, findFileFn, Node.names]
    split_ifs with h
    · simp [hp]
    · have := walkNames_found fileName entries path s hp
      refine ⟨this.1, this.2.1, fun hm => this.2.2 ?_⟩
      rcases List.mem_cons.mp hm with hm | hm
      · exact absurd hm.symm h
      · exact hm
theorem walkNames_found (fileName : Line) :
    ∀ (l : List Node) (path : Line) (s : Line), path ≠ [] →
      (s ≠ [] → (walkNames (findFileFn fileName) path l s).1 ≠ []) ∧
      ((walkNames (findFileFn fileName) path l s).2 = .SkipDir →
        (walkNames (findFileFn fileName) path l s).1 ≠ []) ∧
      (fileName ∈ namesOfList l → (walkNames (findFileFn fileName) path l s).2.errors = [] →
        (walkNames (findFileFn fileName) path l s).1 ≠ [])
  | [], path, s, hp => by simp [walkNames, namesOfList]
  | c :: rest, path, s, hp => by
    have hc := walk_found fileName c (Join path c.name) s (Join_ne_nil _ hp)
    rw [walkNames_cons (findFileFn_lstatError fileName)]
    rcases h : walk (findFileFn fileName) (Join path c.name) c s with ⟨s1, r⟩
    rw [h] at hc
    simp only at hc
    have hr := walkNames_found fileName rest path s1 hp
    simp only [namesOfList, List.mem_append]
    cases r with
    | nil =>
      simp only
      refine ⟨fun hs => hr.1 (hc.1 hs), hr.2.1, ?_⟩
      rintro (hm | hm) he
      · exact hr.1 (hc.2.2 hm rfl)
      · exact hr.2.2 hm he
    | SkipDir =>
      have hs1 : s1 ≠ [] := hc.2.1 rfl
      simp only
      split_ifs
      · exact ⟨fun _ => hr.1 hs1, fun _ => hr.1 hs1, fun _ _ => hr.1 hs1⟩
      · exact ⟨fun _ => hs1, fun _ => hs1, fun _ _ => hs1⟩
    | error e =>
      simp only [WalkResult.errors]
      exact ⟨hc.1, by simp, by simp⟩
end

mutual
theorem walk_unchanged (fileName : Line) :
    ∀ (n : Node) (path : Line) (s : Line), fileName ∉ n.names →
      (walk (findFileFn fileName) path n s).1 = s
  | .file name, path, s, hn => by
    simp only [Node.names, List.mem_singleton] at hn
    have : ¬ name = fileName := fun e => hn e.symm
    simp [walk, findFileFn, this]
  | .unreadable name err, path, s, hn => by simp [walk, findFileFn]
  | .broken name err, path, s, hn => by simp [walk, findFileFn]
  | .dir name entries, path, s, hn => by
    simp only [Node.names, List.mem_cons, not_or] at hn
    have : ¬ name = fileName := fun e => hn.1 e.symm
    simp only [walk, findFileFn, this, if_false]
    exact walkNames_unchanged fileName entries path s hn.2
theorem walkNames_unchanged (fileName : Line) :
    ∀ (l : List Node) (path : Line) (s : Line), fileName ∉ namesOfList l →
      (walkNames (findFileFn fileName) path l s).1 = s
  | [], path, s, hn => by simp [walkNames]
  | c :: rest, path, s, hn => by
    simp only [namesOfList, List.mem_append, not_or] at hn
    have hc := walk_unchanged fileName c (Join path c.name) s hn.1
    rw [walkNames_cons (findFileFn_lstatError fileName)]
    rcases h : walk (findFileFn fileName) (Join path c.name) c s with ⟨s1, r⟩
    rw [h] at hc
    simp only at hc
    subst hc
    have hr := walkNames_unchanged fileName rest path s1 hn.2
    cases r with
    | nil => exact hr
    | SkipDir =>
      simp only
      split_ifs
      · exact hr
      · rfl
    | error e => rfl
end

theorem findFileCalls_eq (tree : Node) (root fileName : Line) :
    findFileCalls tree root fileName =
      (walk (logged (findFileFn fileName)) root tree ([], [])).1.2 := by
  unfold findFileCalls Walk
  split <;> simp_all

theorem findFile_eq (tree : Node) (root fileName : Line) :
    findFile tree root fileName =
      match (walk (findFileFn fileName) root tree []).2 with
      | .error e => ([], some (.walk e))
      | _ =>
        if (walk (findFileFn fileName) root tree []).1 = [] then
          ([], some (.notFound fileName))
        else ((walk (findFileFn fileName) root tree []).1, none) := by
  unfold findFile Walk
  rcases h : walk (findFileFn fileName) root tree [] with ⟨s1, r⟩
  cases r <;> rfl

theorem findFileCalls_errors (tree : Node) (root fileName : Line) :
    errorsOf (findFileCalls tree root fileName) =
      (walk (findFileFn fileName) root tree []).2.errors := by
  rw [findFileCalls_eq, walk_errors, (walk_logged (findFileFn fileName) root tree [] []).2]
  simp [errorsOf]

/-- C9: when the root path is not empty (`Lstat` fails on the empty path) and
no call of the walk function receives an error, `findFile` fails with the error
`file <name> not found` if and only if no entry of the tree, the root
included, has the target name; and whenever a call of the walk function
receives an error, `findFile` returns that error and the empty path. -/
theorem findFile_errors (tree : Node) (root fileName : Line) :
    (root ≠ [] → (∀ pv ∈ findFileCalls tree root fileName, pv.2.err = none) →
      (findFile tree root fileName = ([], some (.notFound fileName)) ↔
        fileName ∉ tree.names)) ∧
    (∀ p v e, (p, v) ∈ findFileCalls tree root fileName → v.err = some e →
      findFile tree root fileName = ([], some (.walk e))) := by
  have herr := findFileCalls_errors tree root fileName
  have heq := findFile_eq tree root fileName
  constructor
  · intro hroot hnone
    have hno : (walk (findFileFn fileName) root tree []).2.errors = [] := by
      rw [← herr]
      unfold errorsOf
      rw [List.filterMap_eq_nil_iff]
      exact hnone
    have hfound := (walk_found fileName tree root [] hroot).2.2
    rcases h : walk (findFileFn fileName) root tree [] with ⟨s1, r⟩
    rw [h] at heq hno hfound
    simp only at heq hno hfound
    have hs : findFile tree root fileName =
        if s1 = [] then ([], some (.notFound fileName)) else (s1, none) := by
      rw [heq]
      cases r with
      | nil => rfl
      | SkipDir => rfl
      | error e => simp [WalkResult.errors] at hno
    rw [hs]
    constructor
    · intro hres hmem
      have hne := hfound hmem hno
      rw [if_neg hne] at hres
      simp at hres
    · intro hmem
      have := walk_unchanged fileName tree root [] hmem
      rw [h] at this
      simp only at this
      rw [if_pos this]
  · intro p v e hmem hv
    have he : e ∈ errorsOf (findFileCalls tree root fileName) := by
      unfold errorsOf
      rw [List.mem_filterMap]
      exact ⟨(p, v), hmem, hv⟩
    rw [herr] at he
    rw [heq]
    cases hr : (walk (findFileFn fileName) root tree []).2 with
    | nil => simp [hr, WalkResult.errors] at he
    | SkipDir => simp [hr, WalkResult.errors] at he
    | error e1 =>
      simp only [hr, WalkResult.errors, List.mem_singleton] at he
      subst he
      rfl

/-- C9 on two trees: one walked without error where no entry is named
`widget.html.markdown`, and one whose second directory cannot be read. -/
theorem findFile_errors_witness :
    (findFile (.dir "r".toList [.dir "a".toList [.file "other.html.markdown".toList]])
        "/repo/website/docs/r/".toList "widget.html.markdown".toList =
          ([], some (.notFound "widget.html.markdown".toList)) ↔
      "widget.html.markdown".toList ∉
        (Node.dir "r".toList [.dir "a".toList [.file "other.html.markdown".toList]]).names) ∧
    findFile (.dir "r".toList [.file "a".toList, .unreadable "b".toList ⟨13⟩])
        "/repo/website/docs/r/".toList "widget.html.markdown".toList =
      ([], some (.walk ⟨13⟩)) :=
  ⟨(findFile_errors (.dir "r".toList [.dir "a".toList [.file "other.html.markdown".toList]])
      "/repo/website/docs/r/".toList "widget.html.markdown".toList).1 (by decide) (by decide),
   (findFile_errors (.dir "r".toList [.file "a".toList, .unreadable "b".toList ⟨13⟩])
      "/repo/website/docs/r/".toList "widget.html.markdown".toList).2
      "/repo/website/docs/r/b".toList (.readError "b".toList ⟨13⟩) ⟨13⟩ (by decide) rfl⟩

/-- C10: for every pair of records the banner is the one of a match exactly
when the Create, Read, Update and Delete fields are pairwise equal, and the
one of a mismatch, with exit code 1, as soon as one field differs. -/
theorem verdict_iff_fields_equal (goTimeouts mdTimeouts : Timeout) :
    ((verdict goTimeouts mdTimeouts).1 = Banner.documentationMatches ↔
      goTimeouts.Create = mdTimeouts.Create ∧ goTimeouts.Read = mdTimeouts.Read ∧
        goTimeouts.Update = mdTimeouts.Update ∧ goTimeouts.Delete = mdTimeouts.Delete) ∧
    ((verdict goTimeouts mdTimeouts).1 = Banner.documentationDoesNotMatch ↔
      goTimeouts.Create ≠ mdTimeouts.Create ∨ goTimeouts.Read ≠ mdTimeouts.Read ∨
        goTimeouts.Update ≠ mdTimeouts.Update ∨ goTimeouts.Delete ≠ mdTimeouts.Delete) ∧
    ((verdict goTimeouts mdTimeouts).1 = Banner.documentationDoesNotMatch ↔
      (verdict goTimeouts mdTimeouts).2 = 1) := by
  obtain ⟨a1, a2, a3, a4⟩ := goTimeouts
  obtain ⟨b1, b2, b3, b4⟩ := mdTimeouts
  unfold verdict
  by_cases h : (⟨a1, a2, a3, a4⟩ : Timeout) = ⟨b1, b2, b3, b4⟩
  · rw [if_pos h]
    simp only [Timeout.mk.injEq] at h
    obtain ⟨h1, h2, h3, h4⟩ := h
    simp [h1, h2, h3, h4]
  · rw [if_neg h]
    simp only [Timeout.mk.injEq] at h
    refine ⟨?_, ?_, ?_⟩
    · simp only [reduceCtorEq, false_iff]
      exact h
    · simp only [true_iff]
      by_contra hc
      push_neg at hc
      exact h hc
    · simp

/-! ## `parseDuration` on arbitrary text -/

theorem matchRest_some_word {s w : Line} (h : matchRest s = some w) :
    w ∈ unitWords ∧ ∃ a b, s = a ++ (w ++ b) := by
  induction s with
  | nil => simp [matchRest, matchUnit_nil] at h
  | cons c cs ih =>
    unfold matchRest at h
    split at h
    · next u hu =>
      have hu' : matchRest cs = some u := by
        by_cases hc : c ≠ '\n'
        · simpa [hc] using hu
        · simp [hc] at hu
      simp only [Option.some.injEq] at h
      subst h
      obtain ⟨hw, a, b, hab⟩ := ih hu'
      exact ⟨hw, c :: a, b, by simp [hab]⟩
    · obtain ⟨hw, b, hb⟩ := matchUnit_some h
      exact ⟨hw, [], b, by simp [hb]⟩

theorem matchDigits_some {acc s g w : Line} (h : matchDigits acc s = some (g, w)) :
    (∃ ds, g = acc ++ ds ∧ ∀ c ∈ ds, c.isDigit = true) ∧ w ∈ unitWords ∧
      ∃ a b, s = a ++ (w ++ b) := by
  induction s generalizing acc with
  | nil => simp [matchDigits, matchRest, matchUnit_nil] at h
  | cons c cs ih =>
    unfold matchDigits at h
    split at h
    · next r hr =>
      simp only [Option.some.injEq] at h
      subst h
      by_cases hc : c.isDigit = true
      · simp only [hc, if_true] at hr
        obtain ⟨⟨ds, hg, hds⟩, hw, a, b, hab⟩ := ih hr
        refine ⟨⟨c :: ds, by simp [hg], ?_⟩, hw, c :: a, b, by simp [hab]⟩
        intro x hx
        rcases List.mem_cons.mp hx with rfl | hx
        · exact hc
        · exact hds x hx
      · simp [hc] at hr
    · cases hm : matchRest (c :: cs) with
      | none => simp [hm] at h
      | some u =>
        simp only [hm, Option.map_some', Option.some.injEq, Prod.mk.injEq] at h
        obtain ⟨rfl, rfl⟩ := h
        obtain ⟨hw, a, b, hab⟩ := matchRest_some_word hm
        exact ⟨⟨[], by simp, by simp⟩, hw, a, b, hab⟩

theorem FindStringSubmatch_some {s g w : Line} (h : FindStringSubmatch s = some (g, w)) :
    g ≠ [] ∧ (∀ c ∈ g, c.isDigit = true) ∧ w ∈ unitWords ∧ HasDuration s := by
  induction s with
  | nil => simp [FindStringSubmatch, matchHere] at h
  | cons c cs ih =>
    unfold FindStringSubmatch at h
    split at h
    · next r hr =>
      simp only [Option.some.injEq] at h
      subst h
      simp only [matchHere] at hr
      by_cases hc : c.isDigit = true
      · simp only [hc, if_true] at hr
        obtain ⟨⟨ds, hg, hds⟩, hw, a, b, hab⟩ := matchDigits_some hr
        refine ⟨by simp [hg], ?_, hw, [], c, a, w, b, by simp [hab], hc, hw⟩
        intro x hx
        rw [hg] at hx
        rcases List.mem_append.mp hx with hx | hx
        · simp only [List.mem_singleton] at hx
          exact hx ▸ hc
        · exact hds x hx
      · simp [hc] at hr
    · obtain ⟨h1, h2, h3, a, d, b, v, e, hs, hd, hv⟩ := ih h
      exact ⟨h1, h2, h3, c :: a, d, b, v, e, by simp [hs], hd, hv⟩

theorem fitInt64_nonneg (n : Nat) : 0 ≤ fitInt64 n := by
  unfold fitInt64
  split_ifs
  · exact Int.ofNat_nonneg n
  · exact le_refl 0

theorem parseDuration_eq (line : Line) :
    parseDuration line =
      match FindStringSubmatch line with
      | none => 0
      | some (ds, w) => fitInt64 (digitsValue ds * unitNanos w) := by
  cases h : FindStringSubmatch line with
  | none => exact parseDuration_of_none h
  | some r =>
    obtain ⟨ds, w⟩ := r
    obtain ⟨hne, hds, hw, -⟩ := FindStringSubmatch_some h
    exact parseDuration_of_match h hne hds hw

theorem parseDuration_nonneg (line : Line) : 0 ≤ parseDuration line := by
  rw [parseDuration_eq]
  split
  · exact le_refl 0
  · exact fitInt64_nonneg _

theorem parseDuration_of_not_HasDuration {line : Line} (h : ¬ HasDuration line) :
    parseDuration line = 0 := by
  apply parseDuration_of_none
  cases hm : FindStringSubmatch line with
  | none => rfl
  | some r => exact absurd (FindStringSubmatch_some hm).2.2.2 h

theorem unitNanos_cases {w : Line} (hw : w ∈ unitWords) :
    ((w = "Hour".toList ∨ w = "hour".toList) ∧ unitNanos w = 3600000000000) ∨
      ((w = "Minute".toList ∨ w = "minute".toList) ∧ unitNanos w = 60000000000) := by
  simp [unitWords] at hw
  rcases hw with rfl | rfl | rfl | rfl <;> decide

/-! ## Claims on the value of `parseDuration` -/

/-- C14: a line in which none of the unit words `Hour`, `hour`, `Minute`,
`minute` occurs has duration zero, whatever digits it has; and a line none of
whose unit words has a digit before it has duration zero. -/
theorem parseDuration_zero_without_unit_or_digit (line : Line) :
    ((∀ w ∈ unitWords, ¬ w <:+: line) → parseDuration line = 0) ∧
    (¬ HasDuration line → parseDuration line = 0) := by
  refine ⟨fun h => ?_, parseDuration_of_not_HasDuration⟩
  apply parseDuration_of_not_HasDuration
  rintro ⟨a, d, b, w, c, rfl, -, hw⟩
  exact h w hw ⟨a ++ d :: b, c, by simp⟩

/-- C14 on `timeout 30 seconds`, which has digits and no unit word, and on
`hours: 5`, whose unit word has no digit before it. -/
theorem parseDuration_zero_without_unit_or_digit_witness :
    parseDuration "timeout 30 seconds".toList = 0 ∧ parseDuration "hours: 5".toList = 0 :=
  ⟨(parseDuration_zero_without_unit_or_digit "timeout 30 seconds".toList).1
      (by
        intro w hw
        rw [← Contains_iff]
        simp only [unitWords, List.mem_cons, List.mem_singleton, List.not_mem_nil,
          or_false] at hw
        rcases hw with rfl | rfl | rfl | rfl <;> decide),
    (parseDuration_zero_without_unit_or_digit "hours: 5".toList).2
      ((HasDuration_iff "hours: 5".toList (by decide)).not.mpr (by decide))⟩

/-- C15: `parseDuration` is never negative, on any text, however long its run
of digits; so every field of a record returned by either record parser is a
non-negative duration. -/
theorem durations_nonneg (fs : Files) (filePath line : Line) (f : Field) :
    0 ≤ parseDuration line ∧
      0 ≤ (parseTimeoutsFromGoFile fs filePath).1.get f ∧
      0 ≤ (parseTimeoutsFromMarkdownFile fs filePath).1.get f := by
  have hzero : ∀ g, 0 ≤ Timeout.zero.get g := by
    intro g
    cases g <;> exact le_refl 0
  have hfold : ∀ (step : Timeout → Line → Timeout) (marker : Field → Line),
      (∀ t l, step t l =
        match firstMarker marker l with
        | none => t
        | some f => t.set f (parseDuration l)) →
      ∀ (lines : List Line) (t : Timeout), (∀ g, 0 ≤ t.get g) →
        ∀ g, 0 ≤ (lines.foldl step t).get g := by
    intro step marker hstep lines
    induction lines with
    | nil => exact fun t ht => ht
    | cons l ls ih =>
      intro t ht
      simp only [List.foldl_cons]
      apply ih
      intro g
      rw [step_get hstep]
      split_ifs
      · exact parseDuration_nonneg l
      · exact ht g
  refine ⟨parseDuration_nonneg line, ?_, ?_⟩
  · unfold parseTimeoutsFromGoFile
    split
    · exact hzero f
    · split
      · exact hzero f
      · exact hfold goLine goMarker goLine_eq _ _ hzero f
  · unfold parseTimeoutsFromMarkdownFile
    split
    · exact hzero f
    · split
      · exact hzero f
      · exact hfold mdLine mdMarker mdLine_eq _ _ hzero f

/-- C17: on a text on which the pattern matches, with `n` the number the
captured run of digits denotes and `u` the nanoseconds of the captured unit
word (3 600 000 000 000 for `Hour` and `hour`, 60 000 000 000 for `Minute`
and `minute`), `parseDuration` is exactly `n * u` when `n * u ≤ 2^63 - 1` and
zero when `n * u` is larger. -/
theorem parseDuration_exact (line ds w : Line) (h : FindStringSubmatch line = some (ds, w)) :
    ((w = "Hour".toList ∨ w = "hour".toList) ∧
      parseDuration line =
        if digitsValue ds * 3600000000000 ≤ 2 ^ 63 - 1
        then ((digitsValue ds * 3600000000000 : Nat) : Int) else 0) ∨
    ((w = "Minute".toList ∨ w = "minute".toList) ∧
      parseDuration line =
        if digitsValue ds * 60000000000 ≤ 2 ^ 63 - 1
        then ((digitsValue ds * 60000000000 : Nat) : Int) else 0) := by
  obtain ⟨hne, hds, hw, -⟩ := FindStringSubmatch_some h
  have hval := parseDuration_of_match h hne hds hw
  unfold fitInt64 at hval
  rcases unitNanos_cases hw with ⟨hword, hu⟩ | ⟨hword, hu⟩
  · left
    rw [hu] at hval
    exact ⟨hword, hval⟩
  · right
    rw [hu] at hval
    exact ⟨hword, hval⟩

/-- C17 on a line with leading zeros, `007 minutes`, and on a line whose count
of hours passes the range of an `int64`. -/
theorem parseDuration_exact_witness :
    parseDuration "wait 007 minutes".toList = 420000000000 ∧
      parseDuration "2562048 hours".toList = 0 ∧
      parseDuration "2562047 hours".toList = 9223369200000000000 := by
  refine ⟨?_, ?_, ?_⟩
  · rcases parseDuration_exact "wait 007 minutes".toList "007".toList "minute".toList
      (by decide) with ⟨hw, -⟩ | ⟨-, hv⟩
    · exact absurd hw (by decide)
    · rw [hv]
      decide
  · rcases parseDuration_exact "2562048 hours".toList "2562048".toList "hour".toList
      (by decide) with ⟨-, hv⟩ | ⟨hw, -⟩
    · rw [hv]
      decide
    · exact absurd hw (by decide)
  · rcases parseDuration_exact "2562047 hours".toList "2562047".toList "hour".toList
      (by decide) with ⟨-, hv⟩ | ⟨hw, -⟩
    · rw [hv]
      decide
    · exact absurd hw (by decide)

/-- C18: in both record parsers, for every file read without error, when the
last line whose first marker is the marker of a field has no digit followed
later by a unit word, the field is zero in the returned record, whatever the
lines before it had set. -/
theorem marker_line_without_duration_resets (fs : Files) (filePath : Line)
    (before after : List Line) (x : Line) (f : Field)
    (hfile : fs filePath = .ok ⟨before ++ x :: after, none⟩) (hno : ¬ HasDuration x) :
    (firstMarker goMarker x = some f →
      (∀ y ∈ after, firstMarker goMarker y ≠ some f) →
      (parseTimeoutsFromGoFile fs filePath).2 = none ∧
        (parseTimeoutsFromGoFile fs filePath).1.get f = 0) ∧
    (firstMarker mdMarker x = some f →
      (∀ y ∈ after, firstMarker mdMarker y ≠ some f) →
      (parseTimeoutsFromMarkdownFile fs filePath).2 = none ∧
        (parseTimeoutsFromMarkdownFile fs filePath).1.get f = 0) := by
  have hzero := parseDuration_of_not_HasDuration hno
  constructor
  · intro hx hafter
    simp only [parseTimeoutsFromGoFile, hfile, true_and]
    rw [foldl_get_last goLine_eq f before after x _ hx hafter, hzero]
  · intro hx hafter
    simp only [parseTimeoutsFromMarkdownFile, hfile, true_and]
    rw [foldl_get_last mdLine_eq f before after x _ hx hafter, hzero]

/-- C18 on a file whose first line sets Read to 5 minutes and whose last line
with the marker of Read has no duration: Read is zero in the record. -/
theorem marker_line_without_duration_resets_witness :
    parseDuration "Read: 5 minute".toList = 300000000000 ∧
      (parseTimeoutsFromGoFile
        (fun _ => .ok ⟨["Read: 5 minute".toList] ++ "Read: none".toList :: [], none⟩)
        []).2 = none ∧
      (parseTimeoutsFromGoFile
        (fun _ => .ok ⟨["Read: 5 minute".toList] ++ "Read: none".toList :: [], none⟩)
        []).1.get Field.Read = 0 :=
  ⟨by decide,
    (marker_line_without_duration_resets
      (fun _ => .ok ⟨["Read: 5 minute".toList] ++ "Read: none".toList :: [], none⟩) []
      ["Read: 5 minute".toList] [] "Read: none".toList Field.Read rfl
      ((HasDuration_iff "Read: none".toList (by decide)).not.mpr (by decide))).1
      (by decide) (by decide)⟩

/-! ## The runs of `main` -/

theorem main_not_definition (w : World) (goFileName rootDir : Line) (rest : List Line)
    (h : isDefinitionFile goFileName = false) :
    main w (goFileName :: rootDir :: rest) =
      ⟨[.checking, .notDefinition goFileName], .code 0⟩ := by
  simp [main, h]

theorem main_open_fails (w : World) (goFileName rootDir : Line) (rest : List Line)
    (h : isDefinitionFile goFileName = true) (err : IOError)
    (hopen : w.files goFileName = .error err) :
    main w (goFileName :: rootDir :: rest) =
      ⟨[.checking, .osOpen goFileName], .panic⟩ := by
  simp [main, h, hopen]

theorem main_go_error (w : World) (goFileName rootDir : Line) (rest : List Line)
    (h : isDefinitionFile goFileName = true) (file : Scanned)
    (hopen : w.files goFileName = .ok file) (err : IOError)
    (hgo : (goRecord w goFileName).2 = some err) :
    main w (goFileName :: rootDir :: rest) =
      ⟨[.checking, .osOpen goFileName, .osOpen goFileName, .errorReadingGo err],
        .code 0⟩ := by
  unfold goRecord at hgo
  rcases hp : parseTimeoutsFromGoFile w.files goFileName with ⟨t, e⟩
  rw [hp] at hgo
  simp only at hgo
  subst hgo
  simp only [main, h, hopen, hp, Bool.not_true, Bool.false_eq_true, if_false]

theorem main_find_error (w : World) (goFileName rootDir : Line) (rest : List Line)
    (h : isDefinitionFile goFileName = true) (file : Scanned)
    (hopen : w.files goFileName = .ok file)
    (hgo : (goRecord w goFileName).2 = none) (err : FindError)
    (hfind : (docPath w goFileName rootDir).2 = some err) :
    main w (goFileName :: rootDir :: rest) =
      ⟨[.checking, .osOpen goFileName, .osOpen goFileName,
        .walkDir (docRootDir goFileName rootDir), .errorFinding err], .code 0⟩ := by
  unfold goRecord at hgo
  unfold docPath at hfind
  rcases hp : parseTimeoutsFromGoFile w.files goFileName with ⟨t, e⟩
  rw [hp] at hgo
  simp only at hgo
  subst hgo
  rcases hf : findFile (w.tree (docRootDir goFileName rootDir))
    (docRootDir goFileName rootDir) (mdFileName goFileName) with ⟨p, e⟩
  rw [hf] at hfind
  simp only at hfind
  subst hfind
  simp only [main, h, hopen, hp, hf, Bool.not_true, Bool.false_eq_true, if_false]

theorem main_md_error (w : World) (goFileName rootDir : Line) (rest : List Line)
    (h : isDefinitionFile goFileName = true) (file : Scanned)
    (hopen : w.files goFileName = .ok file)
    (hgo : (goRecord w goFileName).2 = none)
    (hfind : (docPath w goFileName rootDir).2 = none) (err : IOError)
    (hmd : (mdRecord w goFileName rootDir).2 = some err) :
    main w (goFileName :: rootDir :: rest) =
      ⟨[.checking, .osOpen goFileName, .osOpen goFileName,
        .walkDir (docRootDir goFileName rootDir),
        .found (docPath w goFileName rootDir).1, .osOpen (docPath w goFileName rootDir).1,
        .errorReadingMd err], .code 0⟩ := by
  unfold goRecord at hgo
  unfold mdRecord at hmd
  unfold docPath at hfind hmd ⊢
  rcases hp : parseTimeoutsFromGoFile w.files goFileName with ⟨t, e⟩
  rw [hp] at hgo
  simp only at hgo
  subst hgo
  rcases hf : findFile (w.tree (docRootDir goFileName rootDir))
    (docRootDir goFileName rootDir) (mdFileName goFileName) with ⟨p, e⟩
  rw [hf] at hfind hmd
  simp only at hfind hmd
  subst hfind
  rcases hm : parseTimeoutsFromMarkdownFile w.files p with ⟨t2, e2⟩
  rw [hm] at hmd
  simp only at hmd
  subst hmd
  simp only [main, h, hopen, hp, hf, hm, Bool.not_true, Bool.false_eq_true, if_false]

theorem main_compares (w : World) (goFileName rootDir : Line) (rest : List Line)
    (h : isDefinitionFile goFileName = true) (file : Scanned)
    (hopen : w.files goFileName = .ok file)
    (hsteps : StepsSucceed w goFileName rootDir) :
    main w (goFileName :: rootDir :: rest) =
      ⟨[.checking, .osOpen goFileName, .osOpen goFileName,
        .walkDir (docRootDir goFileName rootDir),
        .found (docPath w goFileName rootDir).1, .osOpen (docPath w goFileName rootDir).1,
        .table (viewResults
          (results (goRecord w goFileName).1 (mdRecord w goFileName rootDir).1)),
        .banner (verdict (goRecord w goFileName).1 (mdRecord w goFileName rootDir).1).1],
        .code (verdict (goRecord w goFileName).1 (mdRecord w goFileName rootDir).1).2⟩ := by
  obtain ⟨hgo, hfind, hmd⟩ := hsteps
  unfold mdRecord at hmd ⊢
  unfold goRecord at hgo ⊢
  unfold docPath at hfind hmd ⊢
  rcases hp : parseTimeoutsFromGoFile w.files goFileName with ⟨t, e⟩
  rw [hp] at hgo
  simp only at hgo
  subst hgo
  rcases hf : findFile (w.tree (docRootDir goFileName rootDir))
    (docRootDir goFileName rootDir) (mdFileName goFileName) with ⟨p, e⟩
  rw [hf] at hfind hmd
  simp only at hfind hmd
  subst hfind
  rcases hm : parseTimeoutsFromMarkdownFile w.files p with ⟨t2, e2⟩
  rw [hm] at hmd
  simp only at hmd
  subst hmd
  simp only [main, h, hopen, hp, hf, hm, Bool.not_true, Bool.false_eq_true, if_false]

theorem main_few_arguments (w : World) (args : List Line)
    (h : ∀ goFileName rootDir rest, args ≠ goFileName :: rootDir :: rest) :
    (main w args).exit = .code 0 ∧ ∀ e ∈ (main w args).events, ∃ exec, e = .usage exec := by
  unfold main
  split
  · next goFileName rootDir rest => exact absurd rfl (h goFileName rootDir rest)
  · split <;> simp

theorem verdict_exit (a b : Timeout) :
    ((verdict a b).2 = 1 ↔ a ≠ b) ∧ ((verdict a b).2 = 0 ↔ a = b) := by
  unfold verdict
  split_ifs with h <;> simp [h]

/-! ## Claims on the orchestrator -/

/-- C11, as stated, fails: in a run with two arguments where the source file
is read and no file named `widget.html.markdown` is under the search root,
`main` prints the error of `findFile` and returns, so the exit status is 0,
where the claim makes it non-zero. -/
theorem main_not_found_exits_zero :
    main
        ⟨fun _ => .ok ⟨["Create: 30 minute".toList], none⟩,
          fun _ => .dir "r".toList [.file "other.html.markdown".toList],
          .ok "timeout_checker".toList⟩
        ["widget_resource.go".toList, "/repo".toList] =
      ⟨[.checking, .osOpen "widget_resource.go".toList, .osOpen "widget_resource.go".toList,
        .walkDir "/repo/website/docs/r/".toList,
        .errorFinding (.notFound "widget.html.markdown".toList)], .code 0⟩ := by
  decide

/-- C11, amended: in every run with two arguments in which `os.Open` of the
source file succeeds whenever the name is a recognised one, the exit status is
1 exactly when the name is recognised, the source record is parsed, the
documentation file is located, the documentation record is parsed and the two
records differ; in every other case it is 0: an unrecognised name, two records
that match, and also a failure to read the source file, to locate the
documentation file or to read it. -/
theorem main_exit_status (w : World) (goFileName rootDir : Line) (rest : List Line)
    (hopen : isDefinitionFile goFileName = true → ∃ file, w.files goFileName = .ok file) :
    ((main w (goFileName :: rootDir :: rest)).exit = .code 1 ↔
      isDefinitionFile goFileName = true ∧ StepsSucceed w goFileName rootDir ∧
        (goRecord w goFileName).1 ≠ (mdRecord w goFileName rootDir).1) ∧
    ((main w (goFileName :: rootDir :: rest)).exit = .code 0 ↔
      ¬ (isDefinitionFile goFileName = true ∧ StepsSucceed w goFileName rootDir ∧
        (goRecord w goFileName).1 ≠ (mdRecord w goFileName rootDir).1)) := by
  cases hdef : isDefinitionFile goFileName with
  | false =>
    rw [main_not_definition w goFileName rootDir rest hdef]
    simp
  | true =>
    obtain ⟨file, hfile⟩ := hopen hdef
    cases hgo : (goRecord w goFileName).2 with
    | some err =>
      rw [main_go_error w goFileName rootDir rest hdef file hfile err hgo]
      simp [StepsSucceed, hgo]
    | none =>
      cases hfind : (docPath w goFileName rootDir).2 with
      | some err =>
        rw [main_find_error w goFileName rootDir rest hdef file hfile hgo err hfind]
        simp [StepsSucceed, hfind]
      | none =>
        cases hmd : (mdRecord w goFileName rootDir).2 with
        | some err =>
          rw [main_md_error w goFileName rootDir rest hdef file hfile hgo hfind err hmd]
          simp [StepsSucceed, hmd]
        | none =>
          have hsteps : StepsSucceed w goFileName rootDir := ⟨hgo, hfind, hmd⟩
          rw [main_compares w goFileName rootDir rest hdef file hfile hsteps]
          have hv := verdict_exit (goRecord w goFileName).1 (mdRecord w goFileName rootDir).1
          simp only [Exit.code.injEq, hv.1, hv.2, hsteps, true_and, ne_eq, not_not]

/-- C11, amended, on two runs: one where the records differ (Read is 2 hours
in the source and 90 minutes in the documentation), which ends with status 1,
and one where they match, which ends with status 0. -/
theorem main_exit_status_witness :
    (main
        ⟨fun p => if p = "widget_resource.go".toList then .ok ⟨["Read: 2 hour".toList], none⟩
          else .ok ⟨["`read` 90 minutes".toList], none⟩,
          fun _ => .dir "r".toList [.file "widget.html.markdown".toList],
          .ok "timeout_checker".toList⟩
        ["widget_resource.go".toList, "/repo".toList]).exit = .code 1 ∧
    (main
        ⟨fun p => if p = "widget_resource.go".toList then .ok ⟨["Read: 2 hour".toList], none⟩
          else .ok ⟨["`read` 120 minutes".toList], none⟩,
          fun _ => .dir "r".toList [.file "widget.html.markdown".toList],
          .ok "timeout_checker".toList⟩
        ["widget_resource.go".toList, "/repo".toList]).exit = .code 0 :=
  ⟨(main_exit_status
      ⟨fun p => if p = "widget_resource.go".toList then .ok ⟨["Read: 2 hour".toList], none⟩
        else .ok ⟨["`read` 90 minutes".toList], none⟩,
        fun _ => .dir "r".toList [.file "widget.html.markdown".toList],
        .ok "timeout_checker".toList⟩
      "widget_resource.go".toList "/repo".toList [] (fun _ => ⟨_, rfl⟩)).1.mpr
      ⟨by decide, ⟨by decide, by decide, by decide⟩, by decide⟩,
    (main_exit_status
      ⟨fun p => if p = "widget_resource.go".toList then .ok ⟨["Read: 2 hour".toList], none⟩
        else .ok ⟨["`read` 120 minutes".toList], none⟩,
        fun _ => .dir "r".toList [.file "widget.html.markdown".toList],
        .ok "timeout_checker".toList⟩
      "widget_resource.go".toList "/repo".toList [] (fun _ => ⟨_, rfl⟩)).2.mpr
      (fun h => h.2.2 (by decide))⟩

/-- C12: for every source file name that ends in neither `_resource.go` nor
`_data_source.go`, whatever the second argument and the environment, `main`
prints its first line and the line about the name and exits with status 0: it
opens no file, walks no directory and prints no table. -/
theorem unrecognised_name_exits_at_once (w : World) (goFileName rootDir : Line)
    (rest : List Line)
    (h1 : HasSuffix goFileName "_resource.go".toList = false)
    (h2 : HasSuffix goFileName "_data_source.go".toList = false) :
    main w (goFileName :: rootDir :: rest) =
        ⟨[.checking, .notDefinition goFileName], .code 0⟩ ∧
      (∀ p, Event.osOpen p ∉ (main w (goFileName :: rootDir :: rest)).events) ∧
      (∀ r, Event.walkDir r ∉ (main w (goFileName :: rootDir :: rest)).events) ∧
      ¬ PrintsTable (main w (goFileName :: rootDir :: rest)) := by
  have hdef : isDefinitionFile goFileName = false := by
    unfold isDefinitionFile
    rw [h1, h2]
    rfl
  rw [main_not_definition w goFileName rootDir rest hdef]
  simp [PrintsTable]

/-- C12 on the name `README.md`. -/
theorem unrecognised_name_exits_at_once_witness :
    main ⟨fun _ => .error ⟨2⟩, fun _ => .broken [] ⟨2⟩, .error ⟨2⟩⟩
        ["README.md".toList, "/repo".toList] =
      ⟨[.checking, .notDefinition "README.md".toList], .code 0⟩ :=
  (unrecognised_name_exits_at_once ⟨fun _ => .error ⟨2⟩, fun _ => .broken [] ⟨2⟩, .error ⟨2⟩⟩
    "README.md".toList "/repo".toList [] (by decide) (by decide)).1

/-- C13: in every run that prints the table or a banner, there are two
arguments, the source record was parsed, the documentation file was located
and the documentation record was parsed; so a run in which one of these three
steps fails prints neither. -/
theorem table_only_after_steps_succeed (w : World) (args : List Line)
    (h : PrintsTable (main w args)) :
    ∃ goFileName rootDir rest,
      args = goFileName :: rootDir :: rest ∧ StepsSucceed w goFileName rootDir := by
  by_cases hargs : ∀ goFileName rootDir rest, args ≠ goFileName :: rootDir :: rest
  · exfalso
    have hev := (main_few_arguments w args hargs).2
    rcases h with ⟨rows, hr⟩ | ⟨b, hb⟩
    · obtain ⟨exec, he⟩ := hev _ hr
      exact absurd he (by simp)
    · obtain ⟨exec, he⟩ := hev _ hb
      exact absurd he (by simp)
  · push_neg at hargs
    obtain ⟨goFileName, rootDir, rest, rfl⟩ := hargs
    refine ⟨goFileName, rootDir, rest, rfl, ?_⟩
    by_contra hsteps
    apply hsteps
    cases hdef : isDefinitionFile goFileName with
    | false =>
      rw [main_not_definition w goFileName rootDir rest hdef] at h
      simp [PrintsTable] at h
    | true =>
      cases hfile : w.files goFileName with
      | error err =>
        rw [main_open_fails w goFileName rootDir rest hdef err hfile] at h
        simp [PrintsTable] at h
      | ok file =>
        cases hgo : (goRecord w goFileName).2 with
        | some err =>
          rw [main_go_error w goFileName rootDir rest hdef file hfile err hgo] at h
          simp [PrintsTable] at h
        | none =>
          cases hfind : (docPath w goFileName rootDir).2 with
          | some err =>
            rw [main_find_error w goFileName rootDir rest hdef file hfile hgo err hfind] at h
            simp [PrintsTable] at h
          | none =>
            cases hmd : (mdRecord w goFileName rootDir).2 with
            | some err =>
              rw [main_md_error w goFileName rootDir rest hdef file hfile hgo hfind err
                hmd] at h
              simp [PrintsTable] at h
            | none => exact ⟨hgo, hfind, hmd⟩

/-- C13 on a run that prints the table: its three steps succeeded. -/
theorem table_only_after_steps_succeed_witness :
    ∃ goFileName rootDir rest,
      ["widget_resource.go".toList, "/repo".toList] = goFileName :: rootDir :: rest ∧
        StepsSucceed
          ⟨fun p =>
            if p = "widget_resource.go".toList then .ok ⟨["Read: 2 hour".toList], none⟩
            else .ok ⟨["`read` 90 minutes".toList], none⟩,
            fun _ => .dir "r".toList [.file "widget.html.markdown".toList],
            .ok "timeout_checker".toList⟩
          goFileName rootDir :=
  table_only_after_steps_succeed
    ⟨fun p => if p = "widget_resource.go".toList then .ok ⟨["Read: 2 hour".toList], none⟩
      else .ok ⟨["`read` 90 minutes".toList], none⟩,
      fun _ => .dir "r".toList [.file "widget.html.markdown".toList],
      .ok "timeout_checker".toList⟩
    ["widget_resource.go".toList, "/repo".toList]
    (Or.inr ⟨Banner.documentationDoesNotMatch, by decide⟩)

/-! ## Soundness of the walk of `findFile` -/

theorem SoundStep.trans {fileName : Line} {ents1 ents2 ents : List (Line × Line)}
    {s s1 : Line} {log log1 : List (Line × Visit)} {r1 : WalkResult}
    {res : (Line × List (Line × Visit)) × WalkResult}
    (h1 : SoundStep fileName ents1 s log ((s1, log1), r1))
    (h2 : SoundStep fileName ents2 s1 log1 res)
    (hsub1 : ∀ x ∈ ents1, x ∈ ents) (hsub2 : ∀ x ∈ ents2, x ∈ ents) :
    SoundStep fileName ents s log res := by
  obtain ⟨e1, hl1, hin1, hs1⟩ := h1
  obtain ⟨e2, hl2, hin2, hs2⟩ := h2
  simp only at hl1 hs1
  refine ⟨e1 ++ e2, by rw [hl2, hl1, List.append_assoc], ?_, ?_⟩
  · intro p nm d hmem
    rcases List.mem_append.mp hmem with hm | hm
    · exact hsub1 _ (hin1 p nm d hm)
    · exact hsub2 _ (hin2 p nm d hm)
  · rcases hs2 with hs2 | ⟨d, hd⟩
    · rcases hs1 with hs1 | ⟨d, hd⟩
      · left
        rw [hs2, hs1]
      · right
        exact ⟨d, by rw [hs2]; exact List.mem_append_left _ hd⟩
    · right
      exact ⟨d, List.mem_append_right _ hd⟩

theorem SoundStep.mono {fileName : Line} {ents1 ents : List (Line × Line)}
    {s : Line} {log : List (Line × Visit)}
    {res : (Line × List (Line × Visit)) × WalkResult}
    (h : SoundStep fileName ents1 s log res) (hsub : ∀ x ∈ ents1, x ∈ ents) :
    SoundStep fileName ents s log res := by
  obtain ⟨e1, hl1, hin1, hs1⟩ := h
  exact ⟨e1, hl1, fun p nm d hm => hsub _ (hin1 p nm d hm), hs1⟩

mutual
theorem walk_sound (fileName : Line) :
    ∀ (n : Node) (path s : Line) (log : List (Line × Visit)),
      SoundStep fileName (entriesUnder path n) s log
        (walk (logged (findFileFn fileName)) path n (s, log))
  | .file name, path, s, log => by
    simp only [walk, logged, findFileFn, entriesUnder]
    split_ifs with h
    · exact ⟨[(path, .entry name false)], rfl, by simp, Or.inr ⟨false, by simp [h]⟩⟩
    · exact ⟨[(path, .entry name false)], rfl, by simp, Or.inl rfl⟩
  | .unreadable name err, path, s, log => by
    simp only [walk, logged, findFileFn, entriesUnder]
    exact ⟨[(path, .readError name err)], rfl, by simp, Or.inl rfl⟩
  | .broken name err, path, s, log => by
    simp only [walk, logged, findFileFn, entriesUnder]
    exact ⟨[(path, .lstatError err)], rfl, by simp, Or.inl rfl⟩
  | .dir name entries, path, s, log => by
    simp only [walk, logged, findFileFn, entriesUnder]
    split_ifs with h
    · exact ⟨[(path, .entry name true)], rfl, by simp, Or.inr ⟨true, by simp [h]⟩⟩
    · have h1 : SoundStep fileName [(path, name)] s log
          ((s, log ++ [(path, Visit.entry name true)]), WalkResult.nil) :=
        ⟨[(path, .entry name true)], rfl, by simp, Or.inl rfl⟩
      exact h1.trans (walkNames_sound fileName entries path s _)
        (fun x hx => by simp at hx; simp [hx]) (fun x hx => by simp [hx])
theorem walkNames_sound (fileName : Line) :
    ∀ (l : List Node) (path s : Line) (log : List (Line × Visit)),
      SoundStep fileName (entriesOfList path l) s log
        (walkNames (logged (findFileFn fileName)) path l (s, log))
  | [], path, s, log => by
    simp only [walkNames, entriesOfList]
    exact ⟨[], by simp, by simp, Or.inl rfl⟩
  | c :: rest, path, s, log => by
    have hc := walk_sound fileName c (Join path c.name) s log
    rw [walkNames_cons (logged_findFileFn_lstatError fileName)]
    rcases h : walk (logged (findFileFn fileName)) (Join path c.name) c (s, log) with
      ⟨⟨s1, log1⟩, r⟩
    rw [h] at hc
    have hr := walkNames_sound fileName rest path s1 log1
    have hsub1 : ∀ x ∈ entriesUnder (Join path c.name) c,
        x ∈ entriesOfList path (c :: rest) := fun x hx => by simp [entriesOfList, hx]
    have hsub2 : ∀ x ∈ entriesOfList path rest,
        x ∈ entriesOfList path (c :: rest) := fun x hx => by simp [entriesOfList, hx]
    cases r with
    | nil => exact hc.trans hr hsub1 hsub2
    | SkipDir =>
      simp only
      split_ifs
      · exact hc.trans hr hsub1 hsub2
      · exact hc.mono hsub1
    | error e => exact hc.mono hsub1
end

/-- C19: whenever `findFile` returns a path without error, the path is not
empty, it is the path of a call of the walk function on an entry whose
`FileInfo` reports the target name, and that entry is an entry of the tree
under the root (the root or one below it). -/
theorem findFile_sound (tree : Node) (root fileName p : Line)
    (h : findFile tree root fileName = (p, none)) :
    p ≠ [] ∧
      (∃ isDir, (p, Visit.entry fileName isDir) ∈ findFileCalls tree root fileName) ∧
      (p, fileName) ∈ entriesUnder root tree := by
  rw [findFile_eq] at h
  have hlog := walk_logged (findFileFn fileName) root tree [] []
  obtain ⟨extra, hextra, hin, hs⟩ := walk_sound fileName tree root [] []
  rw [← findFileCalls_eq] at hextra
  simp only [List.nil_append] at hextra
  rw [hlog.1] at hs
  have hp : (walk (findFileFn fileName) root tree []).1 = p ∧ p ≠ [] := by
    split at h
    · simp at h
    · split_ifs at h with h0
      · simp at h
      · simp only [Prod.mk.injEq, and_true] at h
        exact ⟨h, h ▸ h0⟩
  rw [hp.1] at hs
  refine ⟨hp.2, ?_⟩
  rcases hs with hs | ⟨d, hd⟩
  · exact absurd hs hp.2
  · exact ⟨⟨d, hextra ▸ hd⟩, hin p fileName d hd⟩

/-- C19 on a tree where the file is found in the second directory. -/
theorem findFile_sound_witness :
    "/repo/website/docs/r/b/widget.html.markdown".toList ≠ [] ∧
      (∃ isDir, ("/repo/website/docs/r/b/widget.html.markdown".toList,
          Visit.entry "widget.html.markdown".toList isDir) ∈
        findFileCalls
          (.dir "r".toList
            [.dir "a".toList [.file "other".toList],
             .dir "b".toList [.file "widget.html.markdown".toList]])
          "/repo/website/docs/r/".toList "widget.html.markdown".toList) ∧
      ("/repo/website/docs/r/b/widget.html.markdown".toList, "widget.html.markdown".toList) ∈
        entriesUnder "/repo/website/docs/r/".toList
          (.dir "r".toList
            [.dir "a".toList [.file "other".toList],
             .dir "b".toList [.file "widget.html.markdown".toList]]) :=
  findFile_sound
    (.dir "r".toList
      [.dir "a".toList [.file "other".toList],
       .dir "b".toList [.file "widget.html.markdown".toList]])
    "/repo/website/docs/r/".toList "widget.html.markdown".toList
    "/repo/website/docs/r/b/widget.html.markdown".toList (by decide)

/-! ## `Duration.String` is one to one -/

theorem digitChar_isDigit {n : Nat} (h : n < 10) : (digitChar n).isDigit = true := by
  interval_cases n <;> decide

theorem digitChar_value {n : Nat} (h : n < 10) : (digitChar n).toNat - '0'.toNat = n := by
  interval_cases n <;> decide

theorem digitsValue_append_singleton (D : Line) (c : Char) :
    digitsValue (D ++ [c]) = digitsValue D * 10 + (c.toNat - '0'.toNat) := by
  simp [digitsValue, List.foldl_append]

theorem fmtIntLoop_spec (fuel : Nat) :
    ∀ (v : Nat) (buf : Line), v ≤ fuel →
      ∃ D, fmtIntLoop fuel v buf = D ++ buf ∧ (∀ c ∈ D, c.isDigit = true) ∧
        digitsValue D = v ∧ (0 < v → D ≠ []) := by
  induction fuel with
  | zero =>
    intro v buf hv
    have : v = 0 := by omega
    subst this
    exact ⟨[], by simp [fmtIntLoop], by simp, rfl, by simp⟩
  | succ fuel ih =>
    intro v buf hv
    by_cases hpos : v > 0
    · obtain ⟨D, hD, hdig, hval, -⟩ := ih (v / 10) (digitChar (v % 10) :: buf) (by omega)
      refine ⟨D ++ [digitChar (v % 10)], ?_, ?_, ?_, by simp⟩
      · simp [fmtIntLoop, hpos, hD]
      · intro c hc
        rcases List.mem_append.mp hc with hc | hc
        · exact hdig c hc
        · simp only [List.mem_singleton] at hc
          rw [hc]
          exact digitChar_isDigit (Nat.mod_lt _ (by norm_num))
      · rw [digitsValue_append_singleton, hval, digitChar_value (Nat.mod_lt _ (by norm_num))]
        omega
    · have : v = 0 := by omega
      subst this
      exact ⟨[], by simp [fmtIntLoop], by simp, rfl, by simp⟩

theorem fmtInt_spec (buf : Line) (v : Nat) :
    ∃ D, fmtInt buf v = D ++ buf ∧ D ≠ [] ∧ (∀ c ∈ D, c.isDigit = true) ∧
      digitsValue D = v := by
  unfold fmtInt
  split_ifs with h
  · subst h
    exact ⟨['0'], rfl, by simp, by simp, by decide⟩
  · obtain ⟨D, hD, hdig, hval, hne⟩ := fmtIntLoop_spec v v buf (le_refl v)
    exact ⟨D, hD, hne (by omega), hdig, hval⟩

theorem fmtFracLoop_spec (n : Nat) :
    ∀ (v : Nat) (print : Bool) (buf : Line),
      (fmtFracLoop n v print buf).2.1 = v / 10 ^ n ∧
      ∃ G, (fmtFracLoop n v print buf).1 = G ++ buf ∧ (∀ c ∈ G, c.isDigit = true) ∧
        (print = true →
          (fmtFracLoop n v print buf).2.2 = true ∧ G.length = n ∧
            digitsValue G = v % 10 ^ n) ∧
        (print = false →
          ((fmtFracLoop n v print buf).2.2 = false ∧ G = [] ∧ v % 10 ^ n = 0) ∨
          ((fmtFracLoop n v print buf).2.2 = true ∧ G ≠ [] ∧ G.length ≤ n ∧
            digitsValue G * 10 ^ (n - G.length) = v % 10 ^ n)) := by
  induction n with
  | zero =>
    intro v print buf
    refine ⟨by simp [fmtFracLoop], [], by simp [fmtFracLoop], by simp, ?_, ?_⟩
    · intro hp
      simp [fmtFracLoop, hp, digitsValue, Nat.mod_one]
    · intro hp
      left
      simp [fmtFracLoop, hp, Nat.mod_one]
  | succ n ih =>
    intro v print buf
    have hmod : v % 10 ^ (n + 1) = v % 10 + 10 * (v / 10 % 10 ^ n) := by
      rw [pow_succ, mul_comm, Nat.mod_mul]
    have hdiv : v / 10 / 10 ^ n = v / 10 ^ (n + 1) := by
      rw [Nat.div_div_eq_div_mul, pow_succ, mul_comm]
    by_cases hp1 : (print || v % 10 != 0) = true
    · obtain ⟨h1, G, hG, hdig, htrue, -⟩ :=
        ih (v / 10) true (digitChar (v % 10) :: buf)
      obtain ⟨hp', hlen, hval⟩ := htrue rfl
      have hstep : fmtFracLoop (n + 1) v print buf =
          fmtFracLoop n (v / 10) true (digitChar (v % 10) :: buf) := by
        simp only [fmtFracLoop, hp1, if_true]
      rw [hstep]
      refine ⟨by rw [h1, hdiv], G ++ [digitChar (v % 10)], by simp [hG], ?_, ?_, ?_⟩
      · intro c hc
        rcases List.mem_append.mp hc with hc | hc
        · exact hdig c hc
        · simp only [List.mem_singleton] at hc
          rw [hc]
          exact digitChar_isDigit (Nat.mod_lt _ (by norm_num))
      · intro _
        refine ⟨hp', by simp [hlen], ?_⟩
        rw [digitsValue_append_singleton, hval,
          digitChar_value (Nat.mod_lt _ (by norm_num)), hmod]
        omega
      · intro _
        right
        refine ⟨hp', by simp, by simp [hlen], ?_⟩
        rw [digitsValue_append_singleton, hval,
          digitChar_value (Nat.mod_lt _ (by norm_num)), hmod]
        simp [hlen]
        omega
    · have hpf : print = false := by
        cases print <;> simp_all
      have hd0 : v % 10 = 0 := by
        cases print <;> simp_all
      obtain ⟨h1, G, hG, hdig, -, hfalse⟩ := ih (v / 10) false buf
      have hstep : fmtFracLoop (n + 1) v print buf = fmtFracLoop n (v / 10) false buf := by
        simp only [fmtFracLoop, hpf, hd0]
        rfl
      rw [hstep]
      refine ⟨by rw [h1, hdiv], G, hG, hdig, fun h => absurd (hpf ▸ h) (by simp), ?_⟩
      intro _
      rcases hfalse rfl with ⟨hp', hnil, hz⟩ | ⟨hp', hne, hlen, hval⟩
      · left
        exact ⟨hp', hnil, by rw [hmod, hz, hd0]⟩
      · right
        refine ⟨hp', hne, by omega, ?_⟩
        have : n + 1 - G.length = (n - G.length) + 1 := by omega
        rw [this, pow_succ, ← mul_assoc, hval, hmod, hd0]
        omega

theorem fmtFrac_spec (buf : Line) (v prec : Nat) :
    (fmtFrac buf v prec).2 = v / 10 ^ prec ∧
      (((fmtFrac buf v prec).1 = buf ∧ v % 10 ^ prec = 0) ∨
        ∃ G, (fmtFrac buf v prec).1 = '.' :: (G ++ buf) ∧ G ≠ [] ∧
          (∀ c ∈ G, c.isDigit = true) ∧ G.length ≤ prec ∧
          digitsValue G * 10 ^ (prec - G.length) = v % 10 ^ prec) := by
  obtain ⟨h1, G, hG, hdig, -, hfalse⟩ := fmtFracLoop_spec prec v false buf
  have hf := hfalse rfl
  unfold fmtFrac
  rcases hl : fmtFracLoop prec v false buf with ⟨buf1, v1, print⟩
  rw [hl] at h1 hG hf
  simp only at h1 hG hf
  refine ⟨h1, ?_⟩
  rcases hf with ⟨hp, hnil, hz⟩ | ⟨hp, hne, hlen, hval⟩
  · left
    subst hp hnil
    exact ⟨by simpa using hG, hz⟩
  · right
    subst hp
    exact ⟨G, by simp [hG], hne, hdig, hlen, hval⟩

theorem takeWhile_digits_append (D rest : Line) (hD : ∀ c ∈ D, c.isDigit = true)
    (hrest : ∀ c, rest.head? = some c → c.isDigit = false) :
    (D ++ rest).takeWhile Char.isDigit = D ∧ (D ++ rest).dropWhile Char.isDigit = rest := by
  induction D with
  | nil =>
    cases rest with
    | nil => simp
    | cons c cs =>
      have := hrest c rfl
      simp [List.takeWhile, List.dropWhile, this]
  | cons d ds ih =>
    have hd : d.isDigit = true := hD d (by simp)
    have := ih (fun c hc => hD c (by simp [hc]))
    simp [List.takeWhile, List.dropWhile, hd, this]

theorem takeWhile_unit_append (U rest : Line) (hU : ∀ c ∈ U, isUnitChar c = true)
    (hrest : ∀ c, rest.head? = some c → c.isDigit = true) :
    (U ++ rest).takeWhile isUnitChar = U ∧ (U ++ rest).dropWhile isUnitChar = rest := by
  induction U with
  | nil =>
    cases rest with
    | nil => simp
    | cons c cs =>
      have hc := hrest c rfl
      have : isUnitChar c = false := by simp [isUnitChar, hc]
      simp [List.takeWhile, List.dropWhile, this]
  | cons d ds ih =>
    have hd : isUnitChar d = true := hU d (by simp)
    have := ih (fun c hc => hU c (by simp [hc]))
    simp [List.takeWhile, List.dropWhile, hd, this]

theorem isUnitChar_not_digit {c : Char} (h : isUnitChar c = true) :
    c.isDigit = false ∧ c ≠ '.' := by
  unfold isUnitChar at h
  simp only [Bool.not_eq_true', Bool.or_eq_false_iff, beq_eq_false_iff_ne] at h
  exact ⟨h.1, h.2⟩

theorem readSeg_plain (D U rest : Line) (hD : ∀ c ∈ D, c.isDigit = true)
    (hU : ∀ c ∈ U, isUnitChar c = true) (hne : U ≠ [])
    (hrest : ∀ c, rest.head? = some c → c.isDigit = true) :
    readSeg (D ++ (U ++ rest)) = (digitsValue D * unitValue U, rest) := by
  obtain ⟨u0, us, rfl⟩ := List.exists_cons_of_ne_nil hne
  have hu0 := isUnitChar_not_digit (hU u0 (by simp))
  have h1 := takeWhile_digits_append D (u0 :: us ++ rest) hD
    (fun c hc => by simp at hc; exact hc ▸ hu0.1)
  have h2 := takeWhile_unit_append (u0 :: us) rest hU hrest
  have hhead : (u0 :: us ++ rest).head? ≠ some '.' := by
    simp only [List.cons_append, List.head?_cons, ne_eq, Option.some.injEq]
    exact hu0.2
  unfold readSeg
  simp only [h1.1, h1.2, if_neg hhead, h2.1, h2.2]

theorem readSeg_frac (D G U rest : Line) (hD : ∀ c ∈ D, c.isDigit = true)
    (hG : ∀ c ∈ G, c.isDigit = true)
    (hU : ∀ c ∈ U, isUnitChar c = true) (hne : U ≠ [])
    (hrest : ∀ c, rest.head? = some c → c.isDigit = true) :
    readSeg (D ++ ('.' :: (G ++ (U ++ rest)))) =
      (digitsValue D * unitValue U + digitsValue G * unitValue U / 10 ^ G.length, rest) := by
  obtain ⟨u0, us, rfl⟩ := List.exists_cons_of_ne_nil hne
  have hu0 := isUnitChar_not_digit (hU u0 (by simp))
  have h1 := takeWhile_digits_append D ('.' :: (G ++ (u0 :: us ++ rest))) hD
    (fun c hc => by simp at hc; rw [← hc]; decide)
  have h2 := takeWhile_digits_append G (u0 :: us ++ rest) hG
    (fun c hc => by simp at hc; exact hc ▸ hu0.1)
  have h3 := takeWhile_unit_append (u0 :: us) rest hU hrest
  unfold readSeg
  simp only [h1.1, h1.2, List.head?_cons, if_true, List.tail_cons, h2.1, h2.2, h3.1, h3.2]

theorem readSeg_nil : readSeg [] = (0, []) := by decide

theorem decodeBody_one {seg : Line} {v : Nat} (h : readSeg seg = (v, [])) :
    decodeBody seg = v := by
  simp [decodeBody, h, readSeg_nil]

theorem frac_value {g k prec r : Nat} (hk : k ≤ prec) (h : g * 10 ^ (prec - k) = r) :
    g * 10 ^ prec / 10 ^ k = r := by
  have hp : (10 : Nat) ^ prec = 10 ^ (prec - k) * 10 ^ k := by
    rw [← pow_add]
    congr 1
    omega
  rw [hp, ← mul_assoc, h, Nat.mul_div_cancel _ (by positivity)]

/-- The last segment of a text: a number, the fraction `fmtFrac` wrote and a
unit of `10 ^ prec` nanoseconds. -/
theorem readSeg_last (U : Line) (prec u v : Nat) (hU : ∀ c ∈ U, isUnitChar c = true)
    (hne : U ≠ []) (hunit : unitValue U = 10 ^ prec) :
    readSeg (fmtInt (fmtFrac U u prec).1 v) = (v * 10 ^ prec + u % 10 ^ prec, []) := by
  obtain ⟨-, hfrac⟩ := fmtFrac_spec U u prec
  obtain ⟨D, hD, -, hdig, hval⟩ := fmtInt_spec (fmtFrac U u prec).1 v
  rw [hD]
  rcases hfrac with ⟨hbuf, hz⟩ | ⟨G, hbuf, -, hGdig, hlen, hGval⟩
  · rw [hbuf]
    have := readSeg_plain D U [] hdig hU hne (by simp)
    simp only [List.append_nil] at this
    rw [this, hval, hunit, hz, Nat.add_zero]
  · rw [hbuf]
    have := readSeg_frac D G U [] hdig hGdig hU hne (by simp)
    simp only [List.append_nil] at this
    rw [this, hval, hunit, frac_value hlen hGval]

theorem fmtInt_head (buf : Line) (v : Nat) :
    ∀ c, (fmtInt buf v).head? = some c → c.isDigit = true := by
  obtain ⟨D, hD, hne, hdig, -⟩ := fmtInt_spec buf v
  obtain ⟨d, ds, rfl⟩ := List.exists_cons_of_ne_nil hne
  intro c hc
  rw [hD] at hc
  simp only [List.cons_append, List.head?_cons, Option.some.injEq] at hc
  exact hc ▸ hdig d (by simp)

theorem readSeg_fmtInt_unit (u0 : Char) (rest : Line) (v : Nat)
    (hu0 : isUnitChar u0 = true) (hrest : ∀ c, rest.head? = some c → c.isDigit = true) :
    readSeg (fmtInt (u0 :: rest) v) = (v * unitValue [u0], rest) := by
  obtain ⟨D, hD, -, hdig, hval⟩ := fmtInt_spec (u0 :: rest) v
  have := readSeg_plain D [u0] rest hdig (by simpa using hu0) (by simp) hrest
  rw [hD]
  simp only [List.singleton_append] at this
  rw [this, hval]

theorem decodeBody_formatAbs (u : Nat) : decodeBody (formatAbs u) = u := by
  unfold formatAbs
  have hns : ∀ c ∈ "ns".toList, isUnitChar c = true := by decide
  have hus : ∀ c ∈ "µs".toList, isUnitChar c = true := by decide
  have hms : ∀ c ∈ "ms".toList, isUnitChar c = true := by decide
  have hs : ∀ c ∈ "s".toList, isUnitChar c = true := by decide
  by_cases h1 : u < Second
  · rw [if_pos h1]
    by_cases h0 : u = 0
    · rw [if_pos h0, h0]
      decide
    · rw [if_neg h0]
      by_cases h2 : u < Microsecond
      · rw [if_pos h2]
        have hv := (fmtFrac_spec "ns".toList u 0).1
        have := readSeg_last "ns".toList 0 u (fmtFrac "ns".toList u 0).2 hns (by decide)
          (by decide)
        rw [decodeBody_one this, hv]
        simp [Nat.mod_one]
      · rw [if_neg h2]
        by_cases h3 : u < Millisecond
        · rw [if_pos h3]
          have hv := (fmtFrac_spec "µs".toList u 3).1
          have := readSeg_last "µs".toList 3 u (fmtFrac "µs".toList u 3).2 hus (by decide)
            (by decide)
          rw [decodeBody_one this, hv]
          norm_num
          omega
        · rw [if_neg h3]
          have hv := (fmtFrac_spec "ms".toList u 6).1
          have := readSeg_last "ms".toList 6 u (fmtFrac "ms".toList u 6).2 hms (by decide)
            (by decide)
          rw [decodeBody_one this, hv]
          norm_num
          omega
  · rw [if_neg h1]
    have hv := (fmtFrac_spec "s".toList u 9).1
    have hS := readSeg_last "s".toList 9 u ((fmtFrac "s".toList u 9).2 % 60) hs (by decide)
      (by decide)
    have hSh := fmtInt_head (fmtFrac "s".toList u 9).1 ((fmtFrac "s".toList u 9).2 % 60)
    simp only
    generalize fmtInt (fmtFrac "s".toList u 9).1 ((fmtFrac "s".toList u 9).2 % 60) = S
      at hS hSh ⊢
    rw [hv] at hS ⊢
    have hm : isUnitChar 'm' = true := by decide
    have hh : isUnitChar 'h' = true := by decide
    have umv : unitValue ['m'] = 60000000000 := by decide
    have uhv : unitValue ['h'] = 3600000000000 := by decide
    by_cases hv1 : u / 10 ^ 9 / 60 > 0
    · rw [if_pos hv1]
      have hM := readSeg_fmtInt_unit 'm' S (u / 10 ^ 9 / 60 % 60) hm hSh
      have hMh := fmtInt_head ('m' :: S) (u / 10 ^ 9 / 60 % 60)
      generalize fmtInt ('m' :: S) (u / 10 ^ 9 / 60 % 60) = M at hM hMh ⊢
      by_cases hv2 : u / 10 ^ 9 / 60 / 60 > 0
      · rw [if_pos hv2]
        have hH := readSeg_fmtInt_unit 'h' M (u / 10 ^ 9 / 60 / 60) hh hMh
        simp only [decodeBody, hH, hM, hS, umv, uhv]
        norm_num
        omega
      · rw [if_neg hv2]
        simp only [decodeBody, hM, hS, readSeg_nil, umv]
        norm_num at hv2 ⊢
        omega
    · rw [if_neg hv1]
      rw [decodeBody_one hS]
      norm_num at hv1 ⊢
      omega

theorem formatAbs_head (u : Nat) : (formatAbs u).head? ≠ some '-' := by
  have key : ∀ c, (formatAbs u).head? = some c → c.isDigit = true := by
    unfold formatAbs
    split_ifs
    · intro c hc
      simp only [String.toList, List.head?_cons, Option.some.injEq] at hc
      rw [← hc]
      decide
    · exact fmtInt_head _ _
    · exact fmtInt_head _ _
    · exact fmtInt_head _ _
    · simp only
      split_ifs
      · exact fmtInt_head _ _
      · exact fmtInt_head _ _
      · exact fmtInt_head _ _
  intro h
  exact absurd (key _ h) (by decide)

theorem decode_DurationString (d : Duration) : decode (DurationString d) = d := by
  unfold DurationString decode
  by_cases h : d < 0
  · simp only [if_pos h, List.head?_cons, if_true, List.tail_cons, decodeBody_formatAbs]
    have hd : ((Int.natAbs d : Nat) : Int) = -d := Int.ofNat_natAbs_of_nonpos (le_of_lt h)
    rw [hd, neg_neg]
  · simp only [if_neg h, if_neg (formatAbs_head _), decodeBody_formatAbs]
    exact Int.natAbs_of_nonneg (not_lt.mp h)

theorem DurationString_injective {a b : Duration}
    (h : DurationString a = DurationString b) : a = b := by
  have := congrArg decode h
  rwa [decode_DurationString, decode_DurationString] at this

/-! ## Claim on the table -/

/-- C16: for every pair of records, the row of each field is highlighted
exactly when the durations of that field differ in the two records (the test
is made on the texts of the durations, which differ exactly when the durations
do), and the banner is the one of a mismatch exactly when some row is
highlighted. -/
theorem rows_highlighted_iff_fields_differ (goTimeouts mdTimeouts : Timeout) :
    viewResults (results goTimeouts mdTimeouts) =
        [⟨"Create".toList, DurationString goTimeouts.Create,
            DurationString mdTimeouts.Create,
            decide (goTimeouts.Create ≠ mdTimeouts.Create)⟩,
          ⟨"Read".toList, DurationString goTimeouts.Read, DurationString mdTimeouts.Read,
            decide (goTimeouts.Read ≠ mdTimeouts.Read)⟩,
          ⟨"Update".toList, DurationString goTimeouts.Update,
            DurationString mdTimeouts.Update,
            decide (goTimeouts.Update ≠ mdTimeouts.Update)⟩,
          ⟨"Delete".toList, DurationString goTimeouts.Delete,
            DurationString mdTimeouts.Delete,
            decide (goTimeouts.Delete ≠ mdTimeouts.Delete)⟩] ∧
      ((verdict goTimeouts mdTimeouts).1 = Banner.documentationDoesNotMatch ↔
        ∃ r ∈ viewResults (results goTimeouts mdTimeouts), r.highlighted = true) := by
  have hinj : ∀ a b : Duration,
      decide (DurationString a ≠ DurationString b) = decide (a ≠ b) := by
    intro a b
    by_cases hab : a = b
    · simp [hab]
    · have : DurationString a ≠ DurationString b := fun h => hab (DurationString_injective h)
      simp [hab, this]
  have hrows : viewResults (results goTimeouts mdTimeouts) =
      [⟨"Create".toList, DurationString goTimeouts.Create,
          DurationString mdTimeouts.Create,
          decide (goTimeouts.Create ≠ mdTimeouts.Create)⟩,
        ⟨"Read".toList, DurationString goTimeouts.Read, DurationString mdTimeouts.Read,
          decide (goTimeouts.Read ≠ mdTimeouts.Read)⟩,
        ⟨"Update".toList, DurationString goTimeouts.Update,
          DurationString mdTimeouts.Update,
          decide (goTimeouts.Update ≠ mdTimeouts.Update)⟩,
        ⟨"Delete".toList, DurationString goTimeouts.Delete,
          DurationString mdTimeouts.Delete,
          decide (goTimeouts.Delete ≠ mdTimeouts.Delete)⟩] := by
    simp only [viewResults, results, List.map_cons, List.map_nil, hinj]
  refine ⟨hrows, ?_⟩
  rw [hrows]
  obtain ⟨a1, a2, a3, a4⟩ := goTimeouts
  obtain ⟨b1, b2, b3, b4⟩ := mdTimeouts
  unfold verdict
  by_cases h : (⟨a1, a2, a3, a4⟩ : Timeout) = ⟨b1, b2, b3, b4⟩
  · rw [if_pos h]
    simp only [Timeout.mk.injEq] at h
    obtain ⟨h1, h2, h3, h4⟩ := h
    simp [h1, h2, h3, h4]
  · rw [if_neg h]
    simp only [Timeout.mk.injEq] at h
    simp only [true_iff]
    by_contra hc
    apply h
    simp only [List.mem_cons, List.mem_singleton, List.not_mem_nil, or_false, not_exists,
      not_and] at hc
    have c1 := hc _ (Or.inl rfl)
    have c2 := hc _ (Or.inr (Or.inl rfl))
    have c3 := hc _ (Or.inr (Or.inr (Or.inl rfl)))
    have c4 := hc _ (Or.inr (Or.inr (Or.inr rfl)))
    simp only [decide_eq_true_eq, ne_eq, not_not] at c1 c2 c3 c4
    exact ⟨c1, c2, c3, c4⟩

end TimeoutChecker
